import Mathlib

/-!
Verification of the spot trip-planning backend (Python) against its
natural-language specification.  The Python code is shallowly embedded:
Python `str` values are modelled as `List Char` (Unicode scalar values;
Python additionally admits lone surrogates, on which the functions modelled
here raise `UnicodeEncodeError`, so such strings lie outside the model),
Python dicts as association lists, and the `urllib.parse` standard-library
functions used by `app/utils/dedup.py` are modelled after CPython 3.11.
-/

namespace Spot

/-- Python strings: lists of Unicode scalar values. -/
abbrev PyStr := List Char

/-- Convenience: turn a Lean string literal into a `PyStr`. -/
def pys (s : String) : PyStr := s.data

/-! ## Basic character classes (ASCII, as used by `urllib.parse`) -/

def isAsciiUpper (c : Char) : Bool := 'A' ≤ c && c ≤ 'Z'
def isAsciiLower (c : Char) : Bool := 'a' ≤ c && c ≤ 'z'
def isAsciiAlpha (c : Char) : Bool := isAsciiUpper c || isAsciiLower c
def isAsciiDigit (c : Char) : Bool := '0' ≤ c && c ≤ '9'

/-- `str.lower()` restricted to ASCII letters.  (Python lower-cases the full
Unicode range; URLs and query keys handled here are ASCII, and the model
treats non-ASCII letters as case-less.) -/
def lowerChar (c : Char) : Char :=
  if isAsciiUpper c then Char.ofNat (c.toNat + 32) else c

def pyLower (s : PyStr) : PyStr := s.map lowerChar

/-- The character set stripped by Python's default `str.strip()` / matched by
the regex class `\s`: every code point with the Unicode whitespace property. -/
def pyIsSpace (c : Char) : Bool :=
  c.toNat ∈ [0x09, 0x0A, 0x0B, 0x0C, 0x0D, 0x20, 0x1C, 0x1D, 0x1E, 0x1F, 0x85,
    0xA0, 0x1680, 0x2000, 0x2001, 0x2002, 0x2003, 0x2004, 0x2005, 0x2006,
    0x2007, 0x2008, 0x2009, 0x200A, 0x2028, 0x2029, 0x202F, 0x205F, 0x3000]

/-- Python `str.strip()` with no argument. -/
def pyStrip (s : PyStr) : PyStr :=
  ((s.dropWhile pyIsSpace).reverse.dropWhile pyIsSpace).reverse

/-! ## UTF-8 (used by `quote`/`unquote` via `str.encode`/`bytes.decode`) -/

/-- UTF-8 encoding of one Unicode scalar value. -/
def utf8EncodeNat (n : Nat) : List Nat :=
  if n < 0x80 then [n]
  else if n < 0x800 then [0xC0 + n / 64, 0x80 + n % 64]
  else if n < 0x10000 then [0xE0 + n / 4096, 0x80 + n / 64 % 64, 0x80 + n % 64]
  else [0xF0 + n / 262144, 0x80 + n / 4096 % 64, 0x80 + n / 64 % 64, 0x80 + n % 64]

/-- `s.encode("utf-8")`. -/
def utf8Encode (s : PyStr) : List Nat := s.foldr (fun c acc => utf8EncodeNat c.toNat ++ acc) []

def isCont (b : Nat) : Bool := 0x80 ≤ b && b < 0xC0

/-- Fuel-driven UTF-8 decoding step; `fuel ≥ length` makes the fuel
irrelevant (each step consumes at least one byte). -/
def utf8DecodeAux : Nat → List Nat → List Nat
  | 0, _ => []
  | _ + 1, [] => []
  | f + 1, b :: rest =>
    if b < 0x80 then b :: utf8DecodeAux f rest
    else if 0xC2 ≤ b ∧ b ≤ 0xDF then
      match rest with
      | c1 :: r =>
        if isCont c1 then ((b - 0xC0) * 64 + (c1 - 0x80)) :: utf8DecodeAux f r
        else 0xFFFD :: utf8DecodeAux f (c1 :: r)
      | [] => [0xFFFD]
    else if 0xE0 ≤ b ∧ b ≤ 0xEF then
      match rest with
      | c1 :: c2 :: r =>
        if (if b = 0xE0 then 0xA0 ≤ c1 ∧ c1 ≤ 0xBF
            else if b = 0xED then 0x80 ≤ c1 ∧ c1 ≤ 0x9F
            else isCont c1) ∧ isCont c2 then
          ((b - 0xE0) * 4096 + (c1 - 0x80) * 64 + (c2 - 0x80)) :: utf8DecodeAux f r
        else 0xFFFD :: utf8DecodeAux f (c1 :: c2 :: r)
      | [c1] => 0xFFFD :: utf8DecodeAux f [c1]
      | [] => [0xFFFD]
    else if 0xF0 ≤ b ∧ b ≤ 0xF4 then
      match rest with
      | c1 :: c2 :: c3 :: r =>
        if (if b = 0xF0 then 0x90 ≤ c1 ∧ c1 ≤ 0xBF
            else if b = 0xF4 then 0x80 ≤ c1 ∧ c1 ≤ 0x8F
            else isCont c1) ∧ isCont c2 ∧ isCont c3 then
          ((b - 0xF0) * 262144 + (c1 - 0x80) * 4096 + (c2 - 0x80) * 64 + (c3 - 0x80)) ::
            utf8DecodeAux f r
        else 0xFFFD :: utf8DecodeAux f (c1 :: c2 :: c3 :: r)
      | [c1, c2] => 0xFFFD :: utf8DecodeAux f [c1, c2]
      | [c1] => 0xFFFD :: utf8DecodeAux f [c1]
      | [] => [0xFFFD]
    else 0xFFFD :: utf8DecodeAux f rest

/-- `bytes.decode("utf-8", errors="replace")`, producing code points.
Valid sequences decode exactly; an invalid leading byte (or missing
continuation) yields U+FFFD and the decoder resynchronises on the next byte.
(CPython's replacement of maximal invalid subparts can consume more than one
byte per U+FFFD; the two decoders agree on all valid sequences, which is all
the round-trip proofs use.) -/
def utf8DecodeReplace (l : List Nat) : List Nat := utf8DecodeAux l.length l

/-! ## Percent-encoding: `quote_plus`, `unquote`, `urlencode`, `parse_qsl` -/

/-- The RFC 3986 unreserved bytes (`urllib.parse._ALWAYS_SAFE`):
letters, digits, `_.-~`. -/
def alwaysSafe (b : Nat) : Bool :=
  (0x41 ≤ b && b ≤ 0x5A) || (0x61 ≤ b && b ≤ 0x7A) || (0x30 ≤ b && b ≤ 0x39) ||
    b = 0x5F || b = 0x2E || b = 0x2D || b = 0x7E

/-- Upper-case hex digit, as produced by `urllib.parse`'s byte quoter. -/
def hexDigitU (n : Nat) : Char :=
  match n with
  | 0 => '0' | 1 => '1' | 2 => '2' | 3 => '3' | 4 => '4' | 5 => '5' | 6 => '6'
  | 7 => '7' | 8 => '8' | 9 => '9' | 10 => 'A' | 11 => 'B' | 12 => 'C'
  | 13 => 'D' | 14 => 'E' | _ => 'F'

/-- One byte of `quote_plus(·, safe='')` output: space becomes `+`, unreserved
bytes stay literal, everything else becomes `%XX`. -/
def quotePlusByte (b : Nat) : PyStr :=
  if b = 0x20 then ['+']
  else if alwaysSafe b then [Char.ofNat b]
  else ['%', hexDigitU (b / 16), hexDigitU (b % 16)]

/-- `urllib.parse.quote_plus(s, safe='')`. -/
def quotePlus (s : PyStr) : PyStr :=
  (utf8Encode s).foldr (fun b acc => quotePlusByte b ++ acc) []

def isHexDigitChar (c : Char) : Bool :=
  ('0' ≤ c && c ≤ '9') || ('a' ≤ c && c ≤ 'f') || ('A' ≤ c && c ≤ 'F')

def hexVal (c : Char) : Nat :=
  if c ≤ '9' then c.toNat - 48 else if c ≤ 'F' then c.toNat - 55 else c.toNat - 87

/-- Intermediate token stream of `unquote`: ASCII bytes (literal ASCII
characters and decoded `%XX` pairs) are collected into byte runs which are
UTF-8-decoded; non-ASCII characters pass through unchanged. -/
inductive UTok where
  | byte (b : Nat)
  | chr (c : Char)

/-- Fuel-driven tokenizer step (`fuel ≥ length` makes the fuel irrelevant:
each step consumes at least one character). -/
def unquoteTokensAux : Nat → PyStr → List UTok
  | 0, _ => []
  | _ + 1, [] => []
  | f + 1, c :: rest =>
    if c = '%' then
      match rest with
      | c1 :: c2 :: r2 =>
        if isHexDigitChar c1 && isHexDigitChar c2 then
          .byte (16 * hexVal c1 + hexVal c2) :: unquoteTokensAux f r2
        else .byte 0x25 :: unquoteTokensAux f (c1 :: c2 :: r2)
      | [c1] => .byte 0x25 :: unquoteTokensAux f [c1]
      | [] => [.byte 0x25]
    else if c.toNat < 0x80 then .byte c.toNat :: unquoteTokensAux f rest
    else .chr c :: unquoteTokensAux f rest

def unquoteTokens (s : PyStr) : List UTok := unquoteTokensAux s.length s

theorem unquoteTokensAux_fuel :
    ∀ (f : Nat), ∀ (l : PyStr), l.length ≤ f →
      unquoteTokensAux f l = unquoteTokensAux l.length l := by
  intro f
  induction f using Nat.strong_induction_on with
  | _ f ih =>
    intro l hl
    match f, l with
    | 0, l =>
      have : l = [] := List.eq_nil_of_length_eq_zero (Nat.le_zero.mp hl)
      subst this; rfl
    | f + 1, [] => rfl
    | f + 1, c :: rest =>
      simp only [List.length_cons] at hl
      simp only [unquoteTokensAux, List.length_cons]
      have hrf : rest.length ≤ f := by omega
      by_cases hc : c = '%'
      · rw [if_pos hc, if_pos hc]
        match rest, hrf with
        | c1 :: c2 :: r2, hrf =>
          dsimp only
          simp only [List.length_cons] at hrf ⊢
          by_cases hhex : (isHexDigitChar c1 && isHexDigitChar c2) = true
          · rw [if_pos hhex, if_pos hhex]
            rw [ih f (by omega) r2 (by omega),
              ih (r2.length + 1 + 1) (by omega) r2 (by omega)]
          · rw [if_neg hhex, if_neg hhex]
            rw [ih f (by omega) (c1 :: c2 :: r2) (by simp; omega),
              ih (r2.length + 1 + 1) (by omega) (c1 :: c2 :: r2) (by simp)]
        | [c1], hrf =>
          dsimp only
          simp only [List.length_cons, List.length_nil] at hrf ⊢
          rw [ih f (by omega) [c1] (by simp; omega),
            ih 1 (by omega) [c1] (by simp)]
        | [], hrf => rfl
      · rw [if_neg hc, if_neg hc]
        by_cases ha : c.toNat < 0x80
        · rw [if_pos ha, if_pos ha]
          rw [ih f (by omega) rest (by omega),
            ih rest.length (by omega) rest le_rfl]
        · rw [if_neg ha, if_neg ha]
          rw [ih f (by omega) rest (by omega),
            ih rest.length (by omega) rest le_rfl]

/-- Decode the token stream: each maximal run of bytes is UTF-8-decoded with
replacement (`buf` holds the current run in reverse). -/
def decodeUTokens (buf : List Nat) : List UTok → PyStr
  | [] => (utf8DecodeReplace buf.reverse).map Char.ofNat
  | .byte b :: rest => decodeUTokens (b :: buf) rest
  | .chr c :: rest =>
    (utf8DecodeReplace buf.reverse).map Char.ofNat ++ c :: decodeUTokens [] rest

/-- `urllib.parse.unquote(s, encoding="utf-8", errors="replace")`. -/
def pyUnquote (s : PyStr) : PyStr := decodeUTokens [] (unquoteTokens s)

/-- `.replace('+', ' ')`, applied by `parse_qsl` before unquoting. -/
def plusToSpace (s : PyStr) : PyStr := s.map (fun c => if c = '+' then ' ' else c)

def unquotePlus (s : PyStr) : PyStr := pyUnquote (plusToSpace s)

/-- Split at the first occurrence of `sep` (Python `s.split(sep, 1)`):
returns the part before and, if `sep` occurs, the part after. -/
def splitFirst (sep : Char) (s : PyStr) : PyStr × Option PyStr :=
  let pre := s.takeWhile (· ≠ sep)
  match s.dropWhile (· ≠ sep) with
  | [] => (pre, none)
  | _ :: suf => (pre, some suf)

/-- `urllib.parse.parse_qsl(qs, keep_blank_values=True)` (default `&`
separator, non-strict).  Empty fields are skipped; a field without `=`
becomes a pair with an empty value. -/
def parseQsl (qs : PyStr) : List (PyStr × PyStr) :=
  if qs = [] then []
  else
    (qs.splitOn '&').filterMap fun nv =>
      if nv = [] then none
      else
        let (name, val?) := splitFirst '=' nv
        some (unquotePlus name, unquotePlus (val?.getD []))

/-- `urllib.parse.urlencode(pairs, doseq=True)` for string pairs:
`quote_plus(k) + '=' + quote_plus(v)` joined with `&`. -/
def urlencodePairs (ps : List (PyStr × PyStr)) : PyStr :=
  List.intercalate ['&'] (ps.map fun kv => quotePlus kv.1 ++ '=' :: quotePlus kv.2)


/-! ## Round-trip lemmas for percent-encoding -/

theorem char_valid_nat (c : Char) :
    c.toNat < 0xD800 ∨ (0xDFFF < c.toNat ∧ c.toNat < 0x110000) := c.valid

theorem toNat_ofNat_valid (n : Nat) (h : n.isValidChar) : (Char.ofNat n).toNat = n := by
  simp only [Char.ofNat, h, reduceDIte, Char.ofNatAux, Char.toNat]
  rfl

theorem utf8Encode_cons (c : Char) (s : PyStr) :
    utf8Encode (c :: s) = utf8EncodeNat c.toNat ++ utf8Encode s := rfl

theorem utf8DecodeAux_encode :
    ∀ (s : PyStr) (f : Nat), (utf8Encode s).length ≤ f →
      utf8DecodeAux f (utf8Encode s) = s.map Char.toNat := by
  intro s
  induction s with
  | nil => intro f _; cases f <;> rfl
  | cons c s ih =>
    intro f h
    rw [utf8Encode_cons] at h ⊢
    have hv := char_valid_nat c
    by_cases h1 : c.toNat < 0x80
    · have henc : utf8EncodeNat c.toNat = [c.toNat] := by
        rw [utf8EncodeNat, if_pos h1]
      rw [henc] at h ⊢
      simp only [List.cons_append, List.nil_append, List.length_cons] at h ⊢
      obtain ⟨f', rfl⟩ : ∃ f', f = f' + 1 := ⟨f - 1, by omega⟩
      simp only [utf8DecodeAux, if_pos h1, List.map_cons]
      rw [ih f' (by omega)]
    · by_cases h2 : c.toNat < 0x800
      · have henc : utf8EncodeNat c.toNat = [0xC0 + c.toNat / 64, 0x80 + c.toNat % 64] := by
          rw [utf8EncodeNat, if_neg h1, if_pos h2]
        rw [henc] at h ⊢
        simp only [List.cons_append, List.nil_append, List.length_cons] at h ⊢
        obtain ⟨f', rfl⟩ : ∃ f', f = f' + 1 := ⟨f - 1, by omega⟩
        simp only [utf8DecodeAux]
        rw [if_neg (by omega), if_pos (by omega : (0xC2:Nat) ≤ 0xC0 + c.toNat / 64 ∧ 0xC0 + c.toNat / 64 ≤ 0xDF)]
        rw [if_pos (by simp only [isCont, Bool.and_eq_true, decide_eq_true_eq]; omega)]
        simp only [List.map_cons]
        rw [ih f' (by omega)]
        have hval : (0xC0 + c.toNat / 64 - 0xC0) * 64 + (0x80 + c.toNat % 64 - 0x80) = c.toNat := by
          omega
        rw [hval]
      · by_cases h3 : c.toNat < 0x10000
        · have henc : utf8EncodeNat c.toNat =
              [0xE0 + c.toNat / 4096, 0x80 + c.toNat / 64 % 64, 0x80 + c.toNat % 64] := by
            rw [utf8EncodeNat, if_neg h1, if_neg (by omega), if_pos h3]
          rw [henc] at h ⊢
          simp only [List.cons_append, List.nil_append, List.length_cons] at h ⊢
          obtain ⟨f', rfl⟩ : ∃ f', f = f' + 1 := ⟨f - 1, by omega⟩
          simp only [utf8DecodeAux]
          rw [if_neg (by omega), if_neg (by omega), if_pos (by omega : (0xE0:Nat) ≤ 0xE0 + c.toNat / 4096 ∧ 0xE0 + c.toNat / 4096 ≤ 0xEF)]
          have hcont : (if 0xE0 + c.toNat / 4096 = 0xE0 then 0xA0 ≤ 0x80 + c.toNat / 64 % 64 ∧ 0x80 + c.toNat / 64 % 64 ≤ 0xBF
              else if 0xE0 + c.toNat / 4096 = 0xED then 0x80 ≤ 0x80 + c.toNat / 64 % 64 ∧ 0x80 + c.toNat / 64 % 64 ≤ 0x9F
              else isCont (0x80 + c.toNat / 64 % 64) = true) ∧ isCont (0x80 + c.toNat % 64) = true := by
            refine ⟨?_, by simp only [isCont, Bool.and_eq_true, decide_eq_true_eq]; omega⟩
            by_cases he0 : 0xE0 + c.toNat / 4096 = 0xE0
            · rw [if_pos he0]; omega
            · rw [if_neg he0]
              by_cases hed : 0xE0 + c.toNat / 4096 = 0xED
              · rw [if_pos hed]
                rcases hv with hv | hv
                · omega
                · omega
              · rw [if_neg hed]; simp only [isCont, Bool.and_eq_true, decide_eq_true_eq]; omega
          rw [if_pos hcont]
          simp only [List.map_cons]
          rw [ih f' (by omega)]
          have hval : (0xE0 + c.toNat / 4096 - 0xE0) * 4096 + (0x80 + c.toNat / 64 % 64 - 0x80) * 64 +
              (0x80 + c.toNat % 64 - 0x80) = c.toNat := by omega
          rw [hval]
        · have henc : utf8EncodeNat c.toNat =
              [0xF0 + c.toNat / 262144, 0x80 + c.toNat / 4096 % 64, 0x80 + c.toNat / 64 % 64,
                0x80 + c.toNat % 64] := by
            rw [utf8EncodeNat, if_neg h1, if_neg (by omega), if_neg h3]
          have hub : c.toNat < 0x110000 := by rcases hv with hv | hv <;> omega
          rw [henc] at h ⊢
          simp only [List.cons_append, List.nil_append, List.length_cons] at h ⊢
          obtain ⟨f', rfl⟩ : ∃ f', f = f' + 1 := ⟨f - 1, by omega⟩
          simp only [utf8DecodeAux]
          rw [if_neg (by omega), if_neg (by omega), if_neg (by omega),
            if_pos (by omega : (0xF0:Nat) ≤ 0xF0 + c.toNat / 262144 ∧ 0xF0 + c.toNat / 262144 ≤ 0xF4)]
          have hcont : (if 0xF0 + c.toNat / 262144 = 0xF0 then 0x90 ≤ 0x80 + c.toNat / 4096 % 64 ∧ 0x80 + c.toNat / 4096 % 64 ≤ 0xBF
              else if 0xF0 + c.toNat / 262144 = 0xF4 then 0x80 ≤ 0x80 + c.toNat / 4096 % 64 ∧ 0x80 + c.toNat / 4096 % 64 ≤ 0x8F
              else isCont (0x80 + c.toNat / 4096 % 64) = true) ∧
              isCont (0x80 + c.toNat / 64 % 64) = true ∧ isCont (0x80 + c.toNat % 64) = true := by
            refine ⟨?_, by simp only [isCont, Bool.and_eq_true, decide_eq_true_eq]; omega,
              by simp only [isCont, Bool.and_eq_true, decide_eq_true_eq]; omega⟩
            by_cases hf0 : 0xF0 + c.toNat / 262144 = 0xF0
            · rw [if_pos hf0]; omega
            · rw [if_neg hf0]
              by_cases hf4 : 0xF0 + c.toNat / 262144 = 0xF4
              · rw [if_pos hf4]; omega
              · rw [if_neg hf4]; simp only [isCont, Bool.and_eq_true, decide_eq_true_eq]; omega
          rw [if_pos hcont]
          simp only [List.map_cons]
          rw [ih f' (by omega)]
          have hval : (0xF0 + c.toNat / 262144 - 0xF0) * 262144 +
              (0x80 + c.toNat / 4096 % 64 - 0x80) * 4096 + (0x80 + c.toNat / 64 % 64 - 0x80) * 64 +
              (0x80 + c.toNat % 64 - 0x80) = c.toNat := by omega
          rw [hval]

theorem utf8DecodeReplace_encode (s : PyStr) :
    utf8DecodeReplace (utf8Encode s) = s.map Char.toNat :=
  utf8DecodeAux_encode s _ le_rfl


theorem hexDigitU_spec (n : Nat) :
    isHexDigitChar (hexDigitU n) = true ∧ (hexDigitU n).toNat < 128 ∧ hexDigitU n ≠ '+' ∧
      hexDigitU n ≠ '%' ∧ hexDigitU n ≠ '&' ∧ hexDigitU n ≠ '=' ∧ hexDigitU n ≠ '#' ∧
      hexDigitU n ≠ '?' ∧ 0x20 < (hexDigitU n).toNat := by
  unfold hexDigitU
  split <;> decide

theorem hexVal_hexDigitU : ∀ n : Nat, n < 16 → hexVal (hexDigitU n) = n := by decide

theorem unquoteTokens_ascii (c : Char) (rest : PyStr) (h1 : c ≠ '%') (h2 : c.toNat < 0x80) :
    unquoteTokens (c :: rest) = .byte c.toNat :: unquoteTokens rest := by
  unfold unquoteTokens
  simp only [List.length_cons, unquoteTokensAux]
  rw [if_neg h1, if_pos h2]

theorem unquoteTokens_pct (c1 c2 : Char) (rest : PyStr)
    (h1 : isHexDigitChar c1 = true) (h2 : isHexDigitChar c2 = true) :
    unquoteTokens ('%' :: c1 :: c2 :: rest) =
      .byte (16 * hexVal c1 + hexVal c2) :: unquoteTokens rest := by
  unfold unquoteTokens
  simp only [List.length_cons, unquoteTokensAux]
  rw [if_pos trivial, if_pos (by simp [h1, h2])]
  rw [unquoteTokensAux_fuel (rest.length + 1 + 1) rest (by omega)]

theorem alwaysSafe_bounds (b : Nat) (h : alwaysSafe b = true) :
    b < 128 ∧ b ≠ 0x2B ∧ b ≠ 0x25 ∧ b ≠ 0x20 ∧ b ≠ 0x26 ∧ b ≠ 0x3D ∧ b ≠ 0x23 ∧
      b ≠ 0x3F ∧ 0x20 < b := by
  simp only [alwaysSafe, Bool.or_eq_true, Bool.and_eq_true, decide_eq_true_eq] at h
  omega

theorem toNat_ofNat_small (b : Nat) (h : b < 128) : (Char.ofNat b).toNat = b :=
  toNat_ofNat_valid b (Or.inl (by omega))

theorem unquoteTokens_quoteByte (b : Nat) (hb : b < 256) (rest : PyStr) :
    unquoteTokens (plusToSpace (quotePlusByte b) ++ rest) =
      .byte b :: unquoteTokens rest := by
  by_cases h32 : b = 0x20
  · subst h32
    rw [quotePlusByte, if_pos rfl]
    show unquoteTokens (' ' :: rest) = _
    rw [unquoteTokens_ascii ' ' rest (by decide) (by decide)]
    rfl
  · by_cases hsafe : alwaysSafe b = true
    · obtain ⟨hlt, hplus, hpct, _, _, _, _, _, _⟩ := alwaysSafe_bounds b hsafe
      rw [quotePlusByte, if_neg h32, if_pos hsafe]
      have htn : (Char.ofNat b).toNat = b := toNat_ofNat_small b hlt
      have hne_plus : Char.ofNat b ≠ '+' := fun he => hplus (by rw [← htn, he]; rfl)
      have hne_pct : Char.ofNat b ≠ '%' := fun he => hpct (by rw [← htn, he]; rfl)
      show unquoteTokens ((if Char.ofNat b = '+' then ' ' else Char.ofNat b) :: rest) = _
      rw [if_neg hne_plus, unquoteTokens_ascii _ rest hne_pct (by omega), htn]
    · rw [quotePlusByte, if_neg h32, if_neg hsafe]
      obtain ⟨hhx1, _, hp1, _⟩ := hexDigitU_spec (b / 16)
      obtain ⟨hhx2, _, hp2, _⟩ := hexDigitU_spec (b % 16)
      show unquoteTokens ((if '%' = '+' then ' ' else '%') ::
          (if hexDigitU (b / 16) = '+' then ' ' else hexDigitU (b / 16)) ::
          (if hexDigitU (b % 16) = '+' then ' ' else hexDigitU (b % 16)) :: rest) = _
      rw [if_neg (by decide : ¬('%' = '+')), if_neg hp1, if_neg hp2,
        unquoteTokens_pct _ _ rest hhx1 hhx2,
        hexVal_hexDigitU (b / 16) (by omega), hexVal_hexDigitU (b % 16) (by omega)]
      congr 2
      omega

theorem plusToSpace_append (a b : PyStr) :
    plusToSpace (a ++ b) = plusToSpace a ++ plusToSpace b := List.map_append _ a b

theorem unquoteTokens_nil : unquoteTokens [] = [] := rfl

theorem unquoteTokens_quoteBytes (bs : List Nat) (h : ∀ b ∈ bs, b < 256) :
    unquoteTokens (plusToSpace (bs.foldr (fun b acc => quotePlusByte b ++ acc) [])) =
      bs.map .byte := by
  induction bs with
  | nil => show unquoteTokens (plusToSpace []) = []; exact unquoteTokens_nil
  | cons b bs ih =>
    simp only [List.foldr_cons, List.map_cons]
    rw [plusToSpace_append, unquoteTokens_quoteByte b (h b (List.mem_cons_self b bs)) _]
    rw [ih (fun x hx => h x (List.mem_cons_of_mem b hx))]

theorem decodeUTokens_bytes :
    ∀ (bs : List Nat) (buf : List Nat),
      decodeUTokens buf (bs.map .byte) =
        (utf8DecodeReplace (buf.reverse ++ bs)).map Char.ofNat := by
  intro bs
  induction bs with
  | nil => intro buf; simp [decodeUTokens]
  | cons b bs ih =>
    intro buf
    simp only [List.map_cons, decodeUTokens]
    rw [ih (b :: buf)]
    simp [List.append_assoc]

theorem utf8EncodeNat_lt_256 (n : Nat) (h : n < 0x110000) :
    ∀ b ∈ utf8EncodeNat n, b < 256 := by
  intro b hb
  rw [utf8EncodeNat] at hb
  split at hb <;> [skip; split at hb] <;> [skip; skip; split at hb] <;>
    simp only [List.mem_cons, List.mem_singleton, List.not_mem_nil, or_false] at hb <;>
    rcases hb with rfl | rfl | rfl | rfl <;> omega

theorem utf8Encode_lt_256 (s : PyStr) : ∀ b ∈ utf8Encode s, b < 256 := by
  induction s with
  | nil => intro b hb; simp [utf8Encode] at hb
  | cons c s ih =>
    intro b hb
    rw [utf8Encode_cons] at hb
    rcases List.mem_append.mp hb with hb | hb
    · have hv := char_valid_nat c
      exact utf8EncodeNat_lt_256 c.toNat (by omega) b hb
    · exact ih b hb

/-- Round trip: `unquote_plus(quote_plus(s)) == s`, the key fact behind
idempotence of `canonicalize_url`'s query re-encoding. -/
theorem unquotePlus_quotePlus (s : PyStr) : unquotePlus (quotePlus s) = s := by
  unfold unquotePlus pyUnquote quotePlus
  rw [unquoteTokens_quoteBytes _ (utf8Encode_lt_256 s), decodeUTokens_bytes]
  simp only [List.reverse_nil, List.nil_append]
  rw [utf8DecodeReplace_encode]
  simp only [List.map_map]
  have hcongr : ∀ c ∈ s, (Char.ofNat ∘ Char.toNat) c = id c := fun c _ => Char.ofNat_toNat c
  rw [List.map_congr_left hcongr, List.map_id]

/-- Every character emitted by `quote_plus` is printable ASCII and is none of
the URL delimiters `& = # ?`. -/
theorem quotePlus_chars (s : PyStr) :
    ∀ c ∈ quotePlus s, 0x20 < c.toNat ∧ c.toNat < 128 ∧ c ≠ '&' ∧ c ≠ '=' ∧
      c ≠ '#' ∧ c ≠ '?' := by
  have hbyte : ∀ (b : Nat), b < 256 → ∀ c ∈ quotePlusByte b, 0x20 < c.toNat ∧ c.toNat < 128 ∧
      c ≠ '&' ∧ c ≠ '=' ∧ c ≠ '#' ∧ c ≠ '?' := by
    intro b hb c hc
    rw [quotePlusByte] at hc
    split at hc
    · simp only [List.mem_cons, List.not_mem_nil, or_false] at hc
      subst hc
      refine ⟨by decide, by decide, ?_, ?_, ?_, ?_⟩ <;> decide
    · split at hc
      · next hsafe =>
        simp only [List.mem_cons, List.not_mem_nil, or_false] at hc
        subst hc
        obtain ⟨hlt, _, _, _, h26, h3d, h23, h3f, hgt⟩ := alwaysSafe_bounds b hsafe
        have htn : (Char.ofNat b).toNat = b := toNat_ofNat_small b hlt
        refine ⟨by omega, by omega, ?_, ?_, ?_, ?_⟩ <;>
          exact fun he => by simp [he] at htn; omega
      · simp only [List.mem_cons, List.not_mem_nil, or_false] at hc
        rcases hc with rfl | rfl | rfl
        · refine ⟨by decide, by decide, ?_, ?_, ?_, ?_⟩ <;> decide
        · obtain ⟨_, hlt, _, _, h1, h2, h3, h4, hgt⟩ := hexDigitU_spec (b / 16)
          exact ⟨hgt, hlt, h1, h2, h3, h4⟩
        · obtain ⟨_, hlt, _, _, h1, h2, h3, h4, hgt⟩ := hexDigitU_spec (b % 16)
          exact ⟨hgt, hlt, h1, h2, h3, h4⟩
  have hlist : ∀ (bs : List Nat), (∀ b ∈ bs, b < 256) →
      ∀ c ∈ bs.foldr (fun b acc => quotePlusByte b ++ acc) [], 0x20 < c.toNat ∧
        c.toNat < 128 ∧ c ≠ '&' ∧ c ≠ '=' ∧ c ≠ '#' ∧ c ≠ '?' := by
    intro bs hbs
    induction bs with
    | nil => intro c hc; simp at hc
    | cons b bs ih =>
      intro c hc
      simp only [List.foldr_cons] at hc
      rcases List.mem_append.mp hc with hc | hc
      · exact hbyte b (hbs b (List.mem_cons_self b bs)) c hc
      · exact ih (fun x hx => hbs x (List.mem_cons_of_mem b hx)) c hc
  exact hlist (utf8Encode s) (utf8Encode_lt_256 s)


theorem takeWhile_append_cons {α : Type} (p : α → Bool) (a : List α) (c : α) (b : List α)
    (ha : ∀ x ∈ a, p x = true) (hc : p c = false) :
    (a ++ c :: b).takeWhile p = a := by
  induction a with
  | nil => simp [List.takeWhile, hc]
  | cons x xs ih =>
    rw [List.cons_append, List.takeWhile_cons, if_pos (ha x (List.mem_cons_self x xs)),
      ih (fun y hy => ha y (List.mem_cons_of_mem x hy))]

theorem dropWhile_append_cons {α : Type} (p : α → Bool) (a : List α) (c : α) (b : List α)
    (ha : ∀ x ∈ a, p x = true) (hc : p c = false) :
    (a ++ c :: b).dropWhile p = c :: b := by
  induction a with
  | nil => simp [List.dropWhile, hc]
  | cons x xs ih =>
    rw [List.cons_append, List.dropWhile_cons, if_pos (ha x (List.mem_cons_self x xs))]
    exact ih (fun y hy => ha y (List.mem_cons_of_mem x hy))

theorem splitFirst_of_split (sep : Char) (a : PyStr) (b : PyStr)
    (ha : sep ∉ a) : splitFirst sep (a ++ sep :: b) = (a, some b) := by
  unfold splitFirst
  rw [takeWhile_append_cons _ a sep b
      (fun x hx => by simp; exact fun he => ha (he ▸ hx)) (by simp),
    dropWhile_append_cons _ a sep b
      (fun x hx => by simp; exact fun he => ha (he ▸ hx)) (by simp)]

theorem intercalate_cons_ne_nil {α : Type} (x : α) (a : List α) (l : List (List α))
    (ha : a ≠ []) : List.intercalate [x] (a :: l) ≠ [] := by
  cases l with
  | nil => simpa [List.intercalate] using ha
  | cons b l =>
    simp only [List.intercalate, List.intersperse, List.flatten_cons]
    intro h
    rcases List.append_eq_nil.mp h with ⟨h1, _⟩
    exact ha h1

/-- Round trip: `parse_qsl(urlencode(ps, doseq=True), keep_blank_values=True)`
recovers `ps` exactly, provided no key is empty. -/
theorem parseQsl_urlencodePairs (ps : List (PyStr × PyStr))
    (hk : ∀ kv ∈ ps, kv.1 ≠ []) :
    parseQsl (urlencodePairs ps) = ps := by
  cases ps with
  | nil => rfl
  | cons kv0 rest =>
    have hseg_ne : ∀ l ∈ (kv0 :: rest).map
        (fun kv => quotePlus kv.1 ++ '=' :: quotePlus kv.2), l ≠ [] := by
      intro l hl
      rcases List.mem_map.mp hl with ⟨p, _, rfl⟩
      intro h
      rcases List.append_eq_nil.mp h with ⟨_, h2⟩
      exact List.cons_ne_nil _ _ h2
    have hsegs_ne : (kv0 :: rest).map
        (fun kv => quotePlus kv.1 ++ '=' :: quotePlus kv.2) ≠ [] := by simp
    have hamp : ∀ l ∈ (kv0 :: rest).map
        (fun kv => quotePlus kv.1 ++ '=' :: quotePlus kv.2), '&' ∉ l := by
      intro l hl
      rcases List.mem_map.mp hl with ⟨p, _, rfl⟩
      intro hmem
      rcases List.mem_append.mp hmem with h | h
      · exact (quotePlus_chars _ _ h).2.2.1 rfl
      · rcases List.mem_cons.mp h with h | h
        · exact absurd h.symm (by decide)
        · exact (quotePlus_chars _ _ h).2.2.1 rfl
    have hq_ne : urlencodePairs (kv0 :: rest) ≠ [] := by
      unfold urlencodePairs
      rw [List.map_cons]
      exact intercalate_cons_ne_nil '&' _ _
        (hseg_ne _ (by rw [List.map_cons]; exact List.mem_cons_self _ _))
    unfold parseQsl
    rw [if_neg hq_ne]
    unfold urlencodePairs
    rw [List.splitOn_intercalate _ '&' hamp hsegs_ne]
    have hgen : ∀ (qs : List (PyStr × PyStr)), (∀ kv ∈ qs, kv.1 ≠ []) →
        (qs.map (fun kv => quotePlus kv.1 ++ '=' :: quotePlus kv.2)).filterMap
          (fun nv =>
            if nv = [] then none
            else
              let (name, val?) := splitFirst '=' nv
              some (unquotePlus name, unquotePlus (val?.getD []))) = qs := by
      intro qs hqs
      induction qs with
      | nil => rfl
      | cons p qs ih =>
        rw [List.map_cons, List.filterMap_cons]
        have hne : quotePlus p.1 ++ '=' :: quotePlus p.2 ≠ [] := by
          intro h
          rcases List.append_eq_nil.mp h with ⟨_, h2⟩
          exact List.cons_ne_nil _ _ h2
        have heqm : '=' ∉ quotePlus p.1 := fun hmem => (quotePlus_chars _ _ hmem).2.2.2.1 rfl
        rw [if_neg hne, splitFirst_of_split '=' _ _ heqm]
        simp only [Option.getD_some]
        rw [unquotePlus_quotePlus, unquotePlus_quotePlus,
          ih (fun x hx => hqs x (List.mem_cons_of_mem p hx))]
    exact hgen (kv0 :: rest) hk

/-! ## `urllib.parse.urlsplit` / `urlparse` / `urlunparse` (CPython 3.11)

`_checknetloc` (NFKC-confusable rejection for non-ASCII netlocs) and the
3.11+ `_check_bracketed_host` (IP validation of bracketed hosts) are not
modelled: the model accepts those netlocs.  A `ValueError` raised by
`urlsplit` is modelled as `none`. -/

structure SplitResult where
  scheme : PyStr
  netloc : PyStr
  path : PyStr
  query : PyStr
  fragment : PyStr
deriving Repr, DecidableEq

def isC0OrSpace (c : Char) : Bool := c.toNat ≤ 0x20

def isUnsafeUrlChar (c : Char) : Bool := c = '\t' || c = '\r' || c = '\n'

/-- Removal of `_UNSAFE_URL_BYTES_TO_REMOVE` (tab, CR, LF). -/
def removeUnsafe (s : PyStr) : PyStr := s.filter (fun c => !isUnsafeUrlChar c)

/-- `urllib.parse.scheme_chars`. -/
def schemeChar (c : Char) : Bool :=
  isAsciiAlpha c || isAsciiDigit c || c = '+' || c = '-' || c = '.'

def isNetlocDelim (c : Char) : Bool := c = '/' || c = '?' || c = '#'

/-- The scheme-detection step of `urlsplit`: split at the first `:` when the
candidate is a well-formed scheme (non-empty, alphabetic first character,
`scheme_chars` only), lower-casing it. -/
def splitScheme (url1 : PyStr) : PyStr × PyStr :=
  match url1.findIdx? (· = ':') with
  | some i =>
    if 0 < i ∧ isAsciiAlpha (url1.headD ' ') ∧ (url1.take i).all schemeChar then
      (pyLower (url1.take i), url1.drop (i + 1))
    else (([] : PyStr), url1)
  | none => (([] : PyStr), url1)

/-- The netloc step of `urlsplit`: after `//`, the netloc extends to the
first `/`, `?` or `#`; mismatched square brackets raise `ValueError`
(modelled as `none`). -/
def splitNetloc (rest : PyStr) : Option (PyStr × PyStr) :=
  if rest.take 2 = pys "//" then
    let netloc := (rest.drop 2).takeWhile (fun c => !isNetlocDelim c)
    let rest2 := (rest.drop 2).dropWhile (fun c => !isNetlocDelim c)
    if (('[' ∈ netloc) ∧ ']' ∉ netloc) ∨ ((']' ∈ netloc) ∧ '[' ∉ netloc) then
      none
    else some (netloc, rest2)
  else some ([], rest)

/-- `if '#' in url: url, fragment = url.split('#', 1)`. -/
def splitFragment (rest2 : PyStr) : PyStr × PyStr :=
  if '#' ∈ rest2 then
    let ab := splitFirst '#' rest2
    (ab.1, ab.2.getD [])
  else (rest2, [])

/-- `if '?' in url: url, query = url.split('?', 1)`. -/
def splitQuery (p : PyStr) : PyStr × PyStr :=
  if '?' ∈ p then
    let ab := splitFirst '?' p
    (ab.1, ab.2.getD [])
  else (p, [])

def pyUrlsplit (url0 : PyStr) : Option SplitResult :=
  let url1 := removeUnsafe (url0.dropWhile isC0OrSpace)
  let sr := splitScheme url1
  match splitNetloc sr.2 with
  | none => none
  | some (netloc, rest2) =>
    let fr := splitFragment rest2
    let pq := splitQuery fr.1
    some ⟨sr.1, netloc, pq.1, pq.2, fr.2⟩

/-- The last `/`-separated segment of a path (`url[url.rfind('/')+1:]`). -/
def lastSlashSeg (p : PyStr) : PyStr := (p.reverse.takeWhile (· ≠ '/')).reverse

/-- `urllib.parse._splitparams` (called only when `';' ∈ url`): parameters
are split off the last path segment; `url.find(';', url.rfind('/'))` is the
first `';'` inside the last segment. -/
def splitParams (url : PyStr) : PyStr × PyStr :=
  if '/' ∈ url then
    let lastSeg := lastSlashSeg url
    let pre := url.take (url.length - lastSeg.length)
    match lastSeg.findIdx? (· = ';') with
    | some i => (pre ++ lastSeg.take i, lastSeg.drop (i + 1))
    | none => (url, [])
  else
    match url.findIdx? (· = ';') with
    | some i => (url.take i, url.drop (i + 1))
    | none => (url, [])

structure ParseResult where
  scheme : PyStr
  netloc : PyStr
  path : PyStr
  params : PyStr
  query : PyStr
  fragment : PyStr
deriving Repr, DecidableEq

/-- `urllib.parse.uses_params`. -/
def usesParams : List PyStr :=
  [[], pys "ftp", pys "hdl", pys "prospero", pys "http", pys "imap",
   pys "https", pys "shttp", pys "rtsp", pys "rtsps", pys "rtspu", pys "sip",
   pys "sips", pys "mms", pys "sftp", pys "tel"]

def pyUrlparse (url : PyStr) : Option ParseResult :=
  (pyUrlsplit url).map fun s =>
    if s.scheme ∈ usesParams ∧ ';' ∈ s.path then
      let pp := splitParams s.path
      ⟨s.scheme, s.netloc, pp.1, pp.2, s.query, s.fragment⟩
    else ⟨s.scheme, s.netloc, s.path, [], s.query, s.fragment⟩

/-- `urllib.parse.uses_netloc`. -/
def usesNetloc : List PyStr :=
  [[], pys "ftp", pys "http", pys "gopher", pys "nntp", pys "telnet",
   pys "imap", pys "wais", pys "file", pys "mms", pys "https", pys "shttp",
   pys "snews", pys "prospero", pys "rtsp", pys "rtsps", pys "rtspu",
   pys "rsync", pys "svn", pys "svn+ssh", pys "sftp", pys "nfs", pys "git",
   pys "git+ssh", pys "ws", pys "wss"]

def pyUrlunsplit (scheme netloc path query fragment : PyStr) : PyStr :=
  let url :=
    if netloc ≠ [] ∨ (scheme ≠ [] ∧ scheme ∈ usesNetloc ∧ path.take 2 ≠ pys "//") then
      let p1 := if path ≠ [] ∧ path.take 1 ≠ pys "/" then '/' :: path else path
      pys "//" ++ netloc ++ p1
    else path
  let url2 := if scheme ≠ [] then scheme ++ ':' :: url else url
  let url3 := if query ≠ [] then url2 ++ '?' :: query else url2
  if fragment ≠ [] then url3 ++ '#' :: fragment else url3

def pyUrlunparse (scheme netloc path params query fragment : PyStr) : PyStr :=
  pyUrlunsplit scheme netloc (if params ≠ [] then path ++ ';' :: params else path)
    query fragment

/-! ## `app/utils/dedup.py` -/

/-- Code-point lexicographic `≤` on strings (Python `str` comparison). -/
def strLe : PyStr → PyStr → Bool
  | [], _ => true
  | _ :: _, [] => false
  | a :: as, b :: bs => if a.toNat < b.toNat then true else if a = b then strLe as bs else false

/-- Python tuple comparison for the sort key `(kv[0].lower(), kv[1])` used by
`canonicalize_url`. -/
def pairLe (x y : PyStr × PyStr) : Bool :=
  if pyLower x.1 = pyLower y.1 then strLe x.2 y.2 else strLe (pyLower x.1) (pyLower y.1)

/-- The sort order of `filtered.sort(key=lambda kv: (kv[0].lower(), kv[1]))`.
Python's `list.sort` is stable, as is `List.insertionSort`; for a total
preorder all stable sorts agree, so `insertionSort` models `list.sort`. -/
def canonPairLe : (PyStr × PyStr) → (PyStr × PyStr) → Prop :=
  fun x y => pairLe x y = true

instance : DecidableRel canonPairLe := fun x y =>
  decidable_of_iff (pairLe x y = true) Iff.rfl

/-- Modelled from the spec's words: sorting the query pairs "by (key,
value)" — plain tuple comparison on the raw key, unlike the code's sort key
`(kv[0].lower(), kv[1])`. -/
def specPairLeB (x y : PyStr × PyStr) : Bool :=
  if x.1 = y.1 then strLe x.2 y.2 else strLe x.1 y.1

def specPairLe : (PyStr × PyStr) → (PyStr × PyStr) → Prop :=
  fun x y => specPairLeB x y = true

instance : DecidableRel specPairLe := fun x y =>
  decidable_of_iff (specPairLeB x y = true) Iff.rfl

/-- `_TRACKING_KEYS` from `app/utils/dedup.py`. -/
def TRACKING_KEYS : List PyStr :=
  [pys "fbclid", pys "gclid", pys "igshid", pys "mc_cid", pys "mc_eid",
   pys "mkt_tok", pys "msclkid", pys "ref", pys "ref_src"]

/-- One step of the query-pair filter loop of `canonicalize_url`: strip the
key, drop blank keys, drop `utm_*` keys and keys in the tracking blocklist. -/
def canonFilterPair (kv : PyStr × PyStr) : Option (PyStr × PyStr) :=
  let key := pyStrip kv.1
  if key = [] then none
  else if (pyLower key).take 4 = pys "utm_" then none
  else if pyLower key ∈ TRACKING_KEYS then none
  else some (key, kv.2)

/-- The query-pair filter loop of `canonicalize_url`. -/
def canonFilter (pairs : List (PyStr × PyStr)) : List (PyStr × PyStr) :=
  pairs.filterMap canonFilterPair

/-- `canonicalize_url` from `app/utils/dedup.py`.  The `try/except` around
`urlparse` returns the input unchanged when parsing raises. -/
def canonicalizeUrl (url : PyStr) : PyStr :=
  match pyUrlparse url with
  | none => url
  | some p =>
    let netloc := pyLower p.netloc
    let scheme := if pyLower p.scheme = [] then pys "https" else pyLower p.scheme
    let path := if p.path = [] then pys "/" else p.path
    let filtered := canonFilter (parseQsl p.query)
    let sorted := filtered.insertionSort canonPairLe
    let query := if sorted = [] then [] else urlencodePairs sorted
    pyUrlunparse scheme netloc path [] query []

theorem length_dropWhile_le' {α : Type} (p : α → Bool) (l : List α) :
    (l.dropWhile p).length ≤ l.length := by
  induction l with
  | nil => simp [List.dropWhile]
  | cons a l ih =>
    by_cases h : p a <;> simp [List.dropWhile, h] <;> omega


/-! ## Order lemmas for the query-pair sort, and filter/strip stability -/

theorem charToNat_inj {a b : Char} (h : a.toNat = b.toNat) : a = b := by
  rw [← Char.ofNat_toNat a, ← Char.ofNat_toNat b, h]

theorem strLe_total : ∀ a b : PyStr, strLe a b = true ∨ strLe b a = true := by
  intro a
  induction a with
  | nil => intro b; left; rfl
  | cons x xs ih =>
    intro b
    cases b with
    | nil => right; rfl
    | cons y ys =>
      simp only [strLe]
      by_cases hlt : x.toNat < y.toNat
      · left; rw [if_pos hlt]
      · by_cases heq : x = y
        · subst heq
          rw [if_neg hlt, if_pos rfl, if_neg hlt, if_pos rfl]
          exact ih ys
        · right
          have hyx : y.toNat < x.toNat := by
            rcases Nat.lt_trichotomy x.toNat y.toNat with h | h | h
            · exact absurd h hlt
            · exact absurd (charToNat_inj h) heq
            · exact h
          rw [if_pos hyx]

theorem strLe_cons_iff {x y : Char} {xs ys : PyStr} :
    strLe (x :: xs) (y :: ys) = true ↔
      (x.toNat < y.toNat ∨ (x = y ∧ strLe xs ys = true)) := by
  simp only [strLe]
  by_cases h1 : x.toNat < y.toNat
  · simp [h1]
  · by_cases h2 : x = y
    · simp [h1, h2]
    · simp [h1, h2]

theorem strLe_trans : ∀ a b c : PyStr, strLe a b = true → strLe b c = true →
    strLe a c = true := by
  intro a
  induction a with
  | nil => intro b c _ _; rfl
  | cons x xs ih =>
    intro b c hab hbc
    cases b with
    | nil => exact absurd hab (by simp [strLe])
    | cons y ys =>
      cases c with
      | nil => exact absurd hbc (by simp [strLe])
      | cons z zs =>
        rw [strLe_cons_iff] at hab hbc ⊢
        rcases hab with hab | ⟨rfl, hab⟩
        · rcases hbc with hbc | ⟨rfl, hbc⟩
          · left; omega
          · left; exact hab
        · rcases hbc with hbc | ⟨rfl, hbc⟩
          · left; exact hbc
          · exact Or.inr ⟨rfl, ih ys zs hab hbc⟩

theorem strLe_antisymm : ∀ a b : PyStr, strLe a b = true → strLe b a = true → a = b := by
  intro a
  induction a with
  | nil =>
    intro b _ hba
    cases b with
    | nil => rfl
    | cons y ys => exact absurd hba (by simp [strLe])
  | cons x xs ih =>
    intro b hab hba
    cases b with
    | nil => exact absurd hab (by simp [strLe])
    | cons y ys =>
      rw [strLe_cons_iff] at hab hba
      rcases hab with hab | ⟨rfl, hab⟩
      · rcases hba with hba | ⟨heq, hba⟩
        · omega
        · rw [heq] at hab; omega
      · rcases hba with hba | ⟨_, hba⟩
        · omega
        · rw [ih ys hab hba]

theorem pairLe_total : ∀ x y : PyStr × PyStr, pairLe x y = true ∨ pairLe y x = true := by
  intro x y
  unfold pairLe
  by_cases h : pyLower x.1 = pyLower y.1
  · rw [if_pos h, if_pos h.symm]
    exact strLe_total x.2 y.2
  · rw [if_neg h, if_neg (fun he => h he.symm)]
    exact strLe_total _ _

theorem pairLe_trans : ∀ x y z : PyStr × PyStr, pairLe x y = true → pairLe y z = true →
    pairLe x z = true := by
  intro x y z hxy hyz
  unfold pairLe at hxy hyz ⊢
  by_cases h1 : pyLower x.1 = pyLower y.1
  · by_cases h2 : pyLower y.1 = pyLower z.1
    · rw [if_pos h1] at hxy
      rw [if_pos h2] at hyz
      rw [if_pos (h1.trans h2)]
      exact strLe_trans _ _ _ hxy hyz
    · rw [if_neg h2] at hyz
      rw [if_neg (fun he => h2 (h1.symm.trans he)), h1]
      exact hyz
  · by_cases h2 : pyLower y.1 = pyLower z.1
    · rw [if_neg h1] at hxy
      rw [if_neg (fun he => h1 (he.trans h2.symm)), ← h2]
      exact hxy
    · rw [if_neg h1] at hxy
      rw [if_neg h2] at hyz
      by_cases h3 : pyLower x.1 = pyLower z.1
      · exact absurd (strLe_antisymm _ _ hxy (h3 ▸ hyz)) h1
      · rw [if_neg h3]
        exact strLe_trans _ _ _ hxy hyz

instance : IsTotal (PyStr × PyStr) canonPairLe := ⟨pairLe_total⟩

instance : IsTrans (PyStr × PyStr) canonPairLe := ⟨pairLe_trans⟩

/-! ## Stability of strip and of the tracking filter under re-canonicalization -/

theorem pyStrip_eq_rdrop (s : PyStr) :
    pyStrip s = List.rdropWhile pyIsSpace (s.dropWhile pyIsSpace) := rfl

theorem pyStrip_idem (s : PyStr) : pyStrip (pyStrip s) = pyStrip s := by
  rw [pyStrip_eq_rdrop, pyStrip_eq_rdrop]
  set u := s.dropWhile pyIsSpace with hu
  have huu : u.dropWhile pyIsSpace = u := by
    rw [hu]; exact List.dropWhile_idempotent pyIsSpace s
  have hx : (List.rdropWhile pyIsSpace u).dropWhile pyIsSpace =
      List.rdropWhile pyIsSpace u := by
    rw [List.dropWhile_eq_self_iff]
    intro hl
    obtain ⟨t, ht⟩ := List.rdropWhile_prefix (l := u) (p := pyIsSpace)
    have h0 : 0 < u.length := by
      rw [← ht, List.length_append]
      omega
    have hhead := List.dropWhile_eq_self_iff.mp huu h0
    have hget : u.get ⟨0, h0⟩ = (List.rdropWhile pyIsSpace u).get ⟨0, hl⟩ := by
      rw [List.get_of_eq ht.symm ⟨0, h0⟩]
      exact List.get_append 0 hl
    rw [← hget]
    exact hhead
  rw [hx, List.rdropWhile_idempotent]

theorem canonFilterPair_bind (kv : PyStr × PyStr) :
    (canonFilterPair kv).bind canonFilterPair = canonFilterPair kv := by
  unfold canonFilterPair
  by_cases h1 : pyStrip kv.1 = []
  · rw [if_pos h1]; rfl
  · rw [if_neg h1]
    by_cases h2 : (pyLower (pyStrip kv.1)).take 4 = pys "utm_"
    · rw [if_pos h2]; rfl
    · rw [if_neg h2]
      by_cases h3 : pyLower (pyStrip kv.1) ∈ TRACKING_KEYS
      · rw [if_pos h3]; rfl
      · rw [if_neg h3]
        show canonFilterPair (pyStrip kv.1, kv.2) = _
        unfold canonFilterPair
        simp only [pyStrip_idem]
        rw [if_neg h1, if_neg h2, if_neg h3]

theorem canonFilter_canonFilter (ps : List (PyStr × PyStr)) :
    canonFilter (canonFilter ps) = canonFilter ps := by
  unfold canonFilter
  rw [List.filterMap_filterMap]
  exact List.filterMap_congr (fun kv _ => canonFilterPair_bind kv)

/-- Fuel-driven whitespace-run collapsing (each step consumes at least one
character, so `fuel ≥ length` makes the fuel irrelevant). -/
def collapseWsAux : Nat → PyStr → PyStr
  | 0, _ => []
  | _ + 1, [] => []
  | f + 1, c :: rest =>
    if pyIsSpace c then ' ' :: collapseWsAux f (rest.dropWhile pyIsSpace)
    else c :: collapseWsAux f rest

/-- Whitespace-run collapsing of `_WS_RE.sub(" ", s)` (`\s+` → one space). -/
def collapseWs (s : PyStr) : PyStr := collapseWsAux s.length s

/-- `normalize_name` from `app/utils/dedup.py`. -/
def normalizeName (name : PyStr) : PyStr := collapseWs (pyLower (pyStrip name))



/-! ## Python values and dicts (for items, patches and graph state) -/

/-- Python values as they occur in item dicts.  `num` covers `int`/`float`
scores and counts (exact reals are not needed by any claim). -/
inductive PyVal where
  | none
  | str (s : PyStr)
  | num (n : Int)
  | bool (b : Bool)
  | list (xs : List PyVal)
  | dict (d : List (PyStr × PyVal))

/-- A Python dict with string keys, as an insertion-ordered association list
with unique keys (assignment replaces in place, new keys append). -/
abbrev Dict := List (PyStr × PyVal)

/-- `d.get(k)` / `k in d`. -/
def dictGet (d : Dict) (k : PyStr) : Option PyVal :=
  (d.find? (fun kv => kv.1 = k)).map (·.2)

/-- `d.get(k, default)`. -/
def dictGetD (d : Dict) (k : PyStr) (v : PyVal) : PyVal := (dictGet d k).getD v

/-- `d[k] = v`: replace the value in place if the key exists, else append. -/
def dictSet (d : Dict) (k : PyStr) (v : PyVal) : Dict :=
  if d.any (fun kv => kv.1 = k) then
    d.map (fun kv => if kv.1 = k then (k, v) else kv)
  else d ++ [(k, v)]

/-- `out.update(extra)`: assign every key of `extra` in order. -/
def dictUpdate (d : Dict) (extra : Dict) : Dict :=
  extra.foldl (fun acc kv => dictSet acc kv.1 kv.2) d

/-- Python `v in (None, "", [], {})` — the emptiness test used by the
enrichment merges and the quality split. -/
def isEmptyVal : PyVal → Bool
  | .none => true
  | .str s => s.isEmpty
  | .list xs => xs.isEmpty
  | .dict d => d.isEmpty
  | _ => false

/-- Python truthiness (`bool(v)`), used by `a or b` chains. -/
def pyTruthy : PyVal → Bool
  | .none => false
  | .str s => !s.isEmpty
  | .num n => n ≠ 0
  | .bool b => b
  | .list xs => !xs.isEmpty
  | .dict d => !d.isEmpty

/-- Python `a or b` on values. -/
def pyOr (a b : PyVal) : PyVal := if pyTruthy a then a else b

/-- `k not in out or out[k] in (None, "", [], {})` — the guard of the
first-write-wins merges. -/
def emptyOrMissing (d : Dict) (k : PyStr) : Bool :=
  match dictGet d k with
  | Option.none => true
  | Option.some v => isEmptyVal v

/-! ## `quality_split.py` -/

/-- The five item categories of the graph state. -/
inductive Category where
  | restaurants | travelSpots | hotels | carRentals | flights
deriving DecidableEq, Repr

/-- `CRITICAL_FIELDS` (tier 1). -/
def CRITICAL_FIELDS : Category → List PyStr
  | .restaurants => [pys "name", pys "url"]
  | .travelSpots => [pys "name", pys "url"]
  | .hotels => [pys "name", pys "url"]
  | .carRentals => [pys "provider", pys "url"]
  | .flights => [pys "route", pys "url"]

/-- `IMPORTANT_FIELDS` (tier 2). -/
def IMPORTANT_FIELDS : Category → List PyStr
  | .restaurants => [pys "price_range", pys "cuisine"]
  | .travelSpots => [pys "kind"]
  | .hotels => [pys "price_per_night"]
  | .carRentals => [pys "price_per_day"]
  | .flights => [pys "price_range"]

/-- `NAME_FIELD_MAP.get(category, "name")`. -/
def nameField : Category → PyStr
  | .carRentals => pys "provider"
  | .flights => pys "route"
  | _ => pys "name"

/-- The `section_map` of `quality_split`. -/
def sectionMap : Category → PyStr
  | .restaurants => pys "restaurant"
  | .travelSpots => pys "attraction"
  | .hotels => pys "hotel"
  | .carRentals => pys "car"
  | .flights => pys "flight"

/-- `_merge_enriched` inner loop: first-write-wins merge of one patch into
one item (`if k not in out or out[k] in (None, "", [], {}): out[k] = v`). -/
def mergeEnrichedItem (it : Dict) (extra : Dict) : Dict :=
  extra.foldl
    (fun out kv => if emptyOrMissing out kv.1 then dictSet out kv.1 kv.2 else out) it

/-- The accumulated enrichment patch map, keyed by item id. -/
abbrev EnrichedMap := List (PyStr × Dict)

/-- `enriched.get(it.get("id", ""), {})`; ids are strings in practice (a
non-string id never matches a patch key). -/
def enrichedGet (enriched : EnrichedMap) (idv : PyVal) : Dict :=
  match idv with
  | .str s => ((enriched.find? (fun kv => kv.1 = s)).map (·.2)).getD []
  | _ => []

/-- `_merge_enriched` from `quality_split.py`. -/
def mergeEnriched (items : List Dict) (enriched : EnrichedMap) : List Dict :=
  items.map fun it =>
    let extra := enrichedGet enriched (dictGetD it (pys "id") (.str []))
    if extra.isEmpty then it else mergeEnrichedItem it extra

/-- `_has_required` from `quality_split.py`. -/
def hasRequired (item : Dict) (category : Category) : Bool :=
  let nf := nameField category
  let criticalOk := (CRITICAL_FIELDS category).all fun field =>
    let actual := if field = pys "name" then nf else field
    !isEmptyVal (dictGetD item actual .none)
  if !criticalOk then false
  else if (IMPORTANT_FIELDS category).isEmpty then true
  else (IMPORTANT_FIELDS category).any fun field =>
    !isEmptyVal (dictGetD item field .none)

/-- The reference record built for a demoted item: `{**item, "section": …,
"title": …, "content": …}`. -/
def demoteRecord (cat : Category) (item : Dict) : Dict :=
  dictUpdate item
    [(pys "section", .str (sectionMap cat)),
     (pys "title", pyOr (dictGetD item (nameField cat) .none)
        (pyOr (dictGetD item (pys "name") .none) (.str (pys "Source")))),
     (pys "content", pyOr (dictGetD item (pys "snippet") .none)
        (pyOr (dictGetD item (pys "why_recommended") .none) (.str [])))]

/-- The per-category item lists of the graph state, the enrichment patch map
and the running reference list — the fields of the state dict read by
`quality_split` and `aggregate_results`. -/
structure SplitState where
  restaurants : List Dict
  travelSpots : List Dict
  hotels : List Dict
  carRentals : List Dict
  flights : List Dict
  enrichedData : EnrichedMap
  references : List Dict

def SplitState.items (st : SplitState) : Category → List Dict
  | .restaurants => st.restaurants
  | .travelSpots => st.travelSpots
  | .hotels => st.hotels
  | .carRentals => st.carRentals
  | .flights => st.flights

def categoriesInOrder : List Category :=
  [.restaurants, .travelSpots, .hotels, .carRentals, .flights]

/-- `quality_split`: per category, merge the enrichment patches and keep the
items passing `_has_required` as main results; demote the rest into the
reference list (after the pre-existing references). -/
def qualitySplitMain (st : SplitState) (cat : Category) : List Dict :=
  (mergeEnriched (st.items cat) st.enrichedData).filter (fun it => hasRequired it cat)

def qualitySplitRefs (st : SplitState) : List Dict :=
  st.references ++
    categoriesInOrder.flatMap (fun cat =>
      ((mergeEnriched (st.items cat) st.enrichedData).filter
        (fun it => !hasRequired it cat)).map (demoteRecord cat))

/-! ## `aggregate_results.py` -/

/-- The per-item merge of `aggregate_results`: `item = r.copy();
if r["id"] in enriched: item.update(enriched[r["id"]])` — a plain
`dict.update`, which overwrites existing values. -/
def aggregateItem (enriched : EnrichedMap) (it : Dict) : Dict :=
  let idv := dictGetD it (pys "id") .none
  match idv with
  | .str s =>
    match (enriched.find? (fun kv => kv.1 = s)).map (·.2) with
    | Option.some extra => dictUpdate it extra
    | Option.none => it
  | _ => it

/-- One category list of `aggregate_results`' `final_output`. -/
def aggregateCategory (enriched : EnrichedMap) (items : List Dict) : List Dict :=
  items.map (aggregateItem enriched)


/-! ## Dict lemmas -/

theorem dictGet_map_replace_ne (d : Dict) (k k' : PyStr) (v : PyVal) (hne : k' ≠ k) :
    dictGet (d.map (fun kv => if kv.1 = k' then (k', v) else kv)) k = dictGet d k := by
  induction d with
  | nil => rfl
  | cons kv d ih =>
    unfold dictGet
    rw [List.map_cons, List.find?_cons, List.find?_cons]
    by_cases h1 : kv.1 = k'
    · rw [if_pos h1]
      have : (decide ((k', v).1 = k)) = false := by simp [hne]
      rw [this]
      have : (decide (kv.1 = k)) = false := by simp [h1, hne]
      rw [this]
      exact ih
    · rw [if_neg h1]
      by_cases h2 : kv.1 = k
      · simp [h2]
      · simp only [decide_eq_false h2]
        exact ih

theorem dictGet_map_replace_self (d : Dict) (k : PyStr) (v : PyVal) :
    dictGet (d.map (fun kv => if kv.1 = k then (k, v) else kv)) k =
      if d.any (fun kv => kv.1 = k) then some v else none := by
  induction d with
  | nil => rfl
  | cons kv d ih =>
    unfold dictGet
    rw [List.map_cons, List.find?_cons, List.any_cons]
    by_cases h1 : kv.1 = k
    · simp [h1]
    · simp only [if_neg h1, decide_eq_false h1, Bool.false_or, cond_false]
      exact ih

theorem dictGet_append_single_ne (d : Dict) (k k' : PyStr) (v : PyVal) (hne : k' ≠ k) :
    dictGet (d ++ [(k', v)]) k = dictGet d k := by
  induction d with
  | nil => unfold dictGet; simp [hne]
  | cons kv d ih =>
    unfold dictGet
    rw [List.cons_append, List.find?_cons, List.find?_cons]
    by_cases h2 : kv.1 = k
    · simp [h2]
    · simp only [decide_eq_false h2, cond_false]
      exact ih

theorem find?_eq_none_of_any_false (d : Dict) (k : PyStr)
    (h : d.any (fun kv => kv.1 = k) = false) :
    d.find? (fun kv => kv.1 = k) = none := by
  rw [List.find?_eq_none]
  intro kv hkv
  have h2 := (List.any_eq_false).mp h kv hkv
  simpa using h2

theorem dictGet_dictSet_ne (d : Dict) (k k' : PyStr) (v : PyVal) (hne : k' ≠ k) :
    dictGet (dictSet d k' v) k = dictGet d k := by
  unfold dictSet
  split
  · exact dictGet_map_replace_ne d k k' v hne
  · exact dictGet_append_single_ne d k k' v hne

theorem find?_append_of_none {α : Type} (p : α → Bool) (l₁ l₂ : List α)
    (h : l₁.find? p = none) : (l₁ ++ l₂).find? p = l₂.find? p := by
  induction l₁ with
  | nil => rfl
  | cons x xs ih =>
    cases hp : p x with
    | true =>
      rw [List.find?_cons_of_pos _ hp] at h
      exact absurd h (by simp)
    | false =>
      rw [List.find?_cons_of_neg _ (by simp [hp])] at h
      rw [List.cons_append, List.find?_cons_of_neg _ (by simp [hp])]
      exact ih h

theorem dictGet_dictSet_self (d : Dict) (k : PyStr) (v : PyVal) :
    dictGet (dictSet d k v) k = some v := by
  unfold dictSet
  split
  · next h => rw [dictGet_map_replace_self, if_pos h]
  · next h =>
    unfold dictGet
    have hfalse : d.any (fun kv => kv.1 = k) = false := by
      revert h; cases d.any (fun kv => kv.1 = k) <;> simp
    rw [find?_append_of_none _ d _ (find?_eq_none_of_any_false d k hfalse)]
    simp

theorem emptyOrMissing_dictSet_ne (d : Dict) (k k' : PyStr) (v : PyVal) (hne : k' ≠ k) :
    emptyOrMissing (dictSet d k' v) k = emptyOrMissing d k := by
  unfold emptyOrMissing
  rw [dictGet_dictSet_ne d k k' v hne]

/-- First-write-wins: the merge loop of `_merge_enriched` never changes a key
whose current value is non-empty. -/
theorem mergeEnrichedItem_preserves (it extra : Dict) (k : PyStr)
    (h : emptyOrMissing it k = false) :
    dictGet (mergeEnrichedItem it extra) k = dictGet it k := by
  unfold mergeEnrichedItem
  suffices hgen : ∀ (out : Dict), emptyOrMissing out k = false →
      dictGet (extra.foldl
        (fun out kv => if emptyOrMissing out kv.1 then dictSet out kv.1 kv.2 else out) out) k
        = dictGet out k ∧
      emptyOrMissing (extra.foldl
        (fun out kv => if emptyOrMissing out kv.1 then dictSet out kv.1 kv.2 else out) out) k
        = false by
    exact (hgen it h).1
  induction extra with
  | nil => intro out hout; exact ⟨rfl, hout⟩
  | cons kv extra ih =>
    intro out hout
    rw [List.foldl_cons]
    by_cases hk : kv.1 = k
    · subst hk
      rw [if_neg (by rw [hout]; exact Bool.false_ne_true)]
      exact ih out hout
    · by_cases hguard : emptyOrMissing out kv.1 = true
      · rw [if_pos hguard]
        have h1 : dictGet (dictSet out kv.1 kv.2) k = dictGet out k :=
          dictGet_dictSet_ne out k kv.1 kv.2 hk
        have h2 : emptyOrMissing (dictSet out kv.1 kv.2) k = false := by
          rw [emptyOrMissing_dictSet_ne out k kv.1 kv.2 hk, hout]
        obtain ⟨ha, hb⟩ := ih (dictSet out kv.1 kv.2) h2
        exact ⟨ha.trans h1, hb⟩
      · rw [if_neg hguard]
        exact ih out hout

/-! ## The spec-side tier rule of Quality Split -/

/-- The claim's tier rule: every critical field (the category's
human-readable identifier and the url) non-empty, and at least one important
field non-empty, with tier 2 auto-passing on an empty important set. -/
def specPromote (cat : Category) (item : Dict) : Prop :=
  (∀ f ∈ [nameField cat, pys "url"], isEmptyVal (dictGetD item f .none) = false) ∧
  (IMPORTANT_FIELDS cat = [] ∨
    ∃ f ∈ IMPORTANT_FIELDS cat, isEmptyVal (dictGetD item f .none) = false)

theorem hasRequired_iff_specPromote (item : Dict) (cat : Category) :
    hasRequired item cat = true ↔ specPromote cat item := by
  cases cat <;>
    simp [hasRequired, specPromote, CRITICAL_FIELDS, IMPORTANT_FIELDS, nameField, pys,
      List.all_cons, List.any_cons, and_assoc, or_assoc, and_or_left]


/-! ## `_dedup_by_url_and_title` from `agents/base.py` (composite-key dedup) -/

/-- A search-result item as consumed by the dedup helpers: its `url` and
`title` fields (with `item.get(k, "")` semantics, an absent field is `""`)
plus the rest of the dict. -/
structure SItem where
  url : PyStr
  title : PyStr
  payload : Dict

/-- The composite dedup key `(canonicalize_url(url), normalize_name(title))`. -/
def dedupKey (it : SItem) : PyStr × PyStr :=
  (canonicalizeUrl it.url, normalizeName it.title)

/-- The loop of `_dedup_by_url_and_title`, with the `seen` set as a list of
keys. -/
def dedupGo (seen : List (PyStr × PyStr)) : List SItem → List SItem
  | [] => []
  | it :: rest =>
    let url := canonicalizeUrl it.url
    let title := normalizeName it.title
    if url = [] then dedupGo seen rest
    else if (url, title) ∈ seen then dedupGo seen rest
    else it :: dedupGo ((url, title) :: seen) rest

/-- `_dedup_by_url_and_title`. -/
def dedupByUrlAndTitle (items : List SItem) : List SItem := dedupGo [] items

theorem pyUrlunsplit_ne_nil (scheme netloc path query fragment : PyStr)
    (h : scheme ≠ []) : pyUrlunsplit scheme netloc path query fragment ≠ [] := by
  unfold pyUrlunsplit
  dsimp only
  rw [if_pos h]
  obtain ⟨c, cs, rfl⟩ : ∃ c cs, scheme = c :: cs := by
    cases scheme with
    | nil => exact absurd rfl h
    | cons c cs => exact ⟨c, cs, rfl⟩
  split <;> split <;> simp [List.cons_append]

/-- `canonicalize_url` never returns the empty string: a successful parse is
re-assembled with a non-empty scheme, and a parse failure returns the
(necessarily non-empty) input. -/
theorem canonicalizeUrl_ne_nil (u : PyStr) : canonicalizeUrl u ≠ [] := by
  unfold canonicalizeUrl
  cases hp : pyUrlparse u with
  | none =>
    intro hc
    subst hc
    have : pyUrlparse ([] : PyStr) = none := hp
    rw [show pyUrlparse ([] : PyStr) =
      some ⟨[], [], [], [], [], []⟩ from rfl] at this
    exact Option.noConfusion this
  | some p =>
    apply pyUrlunsplit_ne_nil
    split
    · exact fun hc => List.noConfusion (hc ▸ rfl : pys "https" = ([] : PyStr)) -- placeholder
    · next hcond => exact hcond

theorem dedupGo_spec (items : List SItem) : ∀ (seen : List (PyStr × PyStr)),
    (∀ x ∈ dedupGo seen items, x ∈ items ∧ dedupKey x ∉ seen) ∧
    (dedupGo seen items).Pairwise (fun a b => dedupKey a ≠ dedupKey b) ∧
    List.Sublist (dedupGo seen items) items ∧
    (∀ x ∈ items, dedupKey x ∉ seen →
      (dedupGo seen items).find? (fun y => dedupKey y = dedupKey x) =
        items.find? (fun y => dedupKey y = dedupKey x)) := by
  induction items with
  | nil =>
    intro seen
    exact ⟨by simp [dedupGo], by simp [dedupGo], by simp [dedupGo], by simp⟩
  | cons it rest ih =>
    intro seen
    have hurl : canonicalizeUrl it.url ≠ [] := canonicalizeUrl_ne_nil it.url
    by_cases hseen : (canonicalizeUrl it.url, normalizeName it.title) ∈ seen
    · have hgo : dedupGo seen (it :: rest) = dedupGo seen rest := by
        rw [dedupGo]
        rw [if_neg hurl, if_pos hseen]
      rw [hgo]
      obtain ⟨ihmem, ihpw, ihsub, ihfind⟩ := ih seen
      refine ⟨?_, ihpw, ihsub.trans (List.sublist_cons_self it rest), ?_⟩
      · intro x hx
        obtain ⟨hx1, hx2⟩ := ihmem x hx
        exact ⟨List.mem_cons_of_mem it hx1, hx2⟩
      · intro x hx hxs
        have hxr : x ∈ rest := by
          rcases List.mem_cons.mp hx with rfl | hxr
          · exact absurd hseen hxs
          · exact hxr
        have hkne : ¬(dedupKey it = dedupKey x) := by
          intro he
          rw [← he] at hxs
          exact hxs hseen
        rw [ihfind x hxr hxs, List.find?_cons_of_neg _ (by simp [hkne])]
    · have hgo : dedupGo seen (it :: rest) =
          it :: dedupGo ((canonicalizeUrl it.url, normalizeName it.title) :: seen) rest := by
        rw [dedupGo]
        rw [if_neg hurl, if_neg hseen]
      rw [hgo]
      obtain ⟨ihmem, ihpw, ihsub, ihfind⟩ :=
        ih ((canonicalizeUrl it.url, normalizeName it.title) :: seen)
      refine ⟨?_, ?_, List.Sublist.cons₂ it ihsub, ?_⟩
      · intro x hx
        rcases List.mem_cons.mp hx with rfl | hx
        · exact ⟨List.mem_cons_self _ _, hseen⟩
        · obtain ⟨hx1, hx2⟩ := ihmem x hx
          exact ⟨List.mem_cons_of_mem it hx1,
            fun hs => hx2 (List.mem_cons_of_mem _ hs)⟩
      · refine List.Pairwise.cons ?_ ihpw
        intro x hx he
        obtain ⟨_, hx2⟩ := ihmem x hx
        exact hx2 (by rw [← he]; exact List.mem_cons_self _ _)
      · intro x hx hxs
        by_cases hkey : dedupKey it = dedupKey x
        · rw [List.find?_cons_of_pos _ (by simp [hkey]),
            List.find?_cons_of_pos _ (by simp [hkey])]
        · rw [List.find?_cons_of_neg _ (by simp [hkey]),
            List.find?_cons_of_neg _ (by simp [hkey])]
          have hxr : x ∈ rest := by
            rcases List.mem_cons.mp hx with rfl | hxr
            · exact absurd rfl hkey
            · exact hxr
          refine ihfind x hxr ?_
          intro hmem
          rcases List.mem_cons.mp hmem with he | hs
          · exact hkey (by simp [dedupKey, he.symm])
          · exact hxs hs


/-- C7: composite-key dedup keeps no two items with the same
`(canonical_url, normalized_title)` key, returns a subsequence of the input,
and for every key present the kept item is exactly the first input item with
that key (`find?` agrees between output and input). -/
theorem dedup_composite_key :
    ∀ (items : List SItem),
      (dedupByUrlAndTitle items).Pairwise (fun a b => dedupKey a ≠ dedupKey b) ∧
      List.Sublist (dedupByUrlAndTitle items) items ∧
      (∀ x ∈ items,
        (dedupByUrlAndTitle items).find? (fun y => dedupKey y = dedupKey x) =
          items.find? (fun y => dedupKey y = dedupKey x)) := by
  intro items
  obtain ⟨_, hpw, hsub, hfind⟩ := dedupGo_spec items []
  exact ⟨hpw, hsub, fun x hx => hfind x hx (by simp)⟩

/-- C7 witness: two items with the same canonical url (case/slash variants)
and the same normalized title; for the duplicate's key, the kept item is the
first occurrence. -/
theorem dedup_composite_key_witness :
    (dedupByUrlAndTitle [⟨pys "https://a.com", pys "X", []⟩,
        ⟨pys "HTTPS://A.COM/", pys " x", []⟩]).find?
      (fun y => dedupKey y = dedupKey ⟨pys "HTTPS://A.COM/", pys " x", []⟩) =
    ([⟨pys "https://a.com", pys "X", []⟩, ⟨pys "HTTPS://A.COM/", pys " x", []⟩] :
        List SItem).find?
      (fun y => dedupKey y = dedupKey ⟨pys "HTTPS://A.COM/", pys " x", []⟩) :=
  (dedup_composite_key
    [⟨pys "https://a.com", pys "X", []⟩, ⟨pys "HTTPS://A.COM/", pys " x", []⟩]).2.2
    ⟨pys "HTTPS://A.COM/", pys " x", []⟩
    (List.mem_cons_of_mem _ (List.mem_cons_self _ _))

/-- C10 (counterexample): `"?a=1"` has no scheme, host or path, yet
`canonicalize_url` maps it to `"https:///?a=1"`, not `"https:///"` — the
claim's parenthetical fails for inputs with surviving query parameters. -/
theorem urlless_collapse_counterexample :
    (pyUrlparse (pys "?a=1")).map (fun p => (p.scheme, p.netloc, p.path)) =
      some ([], [], []) ∧
    canonicalizeUrl (pys "?a=1") = pys "https:///?a=1" ∧
    canonicalizeUrl (pys "?a=1") ≠ pys "https:///" := by decide

/-- C10 (amended): the empty url canonicalizes to `"https:///"`, so in the
composite-key dedup all url-less items share that canonical URL and are
deduplicated by normalized title alone: two url-less items with the same
normalized title reduce to the first. -/
theorem urlless_items_collapse :
    canonicalizeUrl (pys "") = pys "https:///" ∧
    ∀ (a b : SItem), a.url = [] → b.url = [] →
      normalizeName a.title = normalizeName b.title →
      dedupByUrlAndTitle [a, b] = [a] := by
  have hc : canonicalizeUrl ([] : PyStr) = pys "https:///" := by decide
  refine ⟨hc, ?_⟩
  intro a b ha hb ht
  unfold dedupByUrlAndTitle
  rw [dedupGo]
  rw [ha, hc]
  rw [if_neg (by decide : ¬(pys "https:///" = ([] : PyStr))), if_neg (by simp)]
  rw [dedupGo]
  rw [hb, hc]
  rw [if_neg (by decide : ¬(pys "https:///" = ([] : PyStr))),
    if_pos (List.mem_singleton.mpr (by rw [ht]))]
  rfl

/-- C10 witness: two distinct url-less items whose titles normalize equally
collapse to the first. -/
theorem urlless_items_collapse_witness :
    dedupByUrlAndTitle [⟨[], pys "X", []⟩, ⟨[], pys " x ", []⟩] =
      [⟨[], pys "X", []⟩] :=
  urlless_items_collapse.2 ⟨[], pys "X", []⟩ ⟨[], pys " x ", []⟩ rfl rfl (by decide)

/-- C5 (counterexample): `canonicalize_url` is NOT idempotent:
`"https:////x"` (empty netloc, path starting with `//`) canonicalizes to
`"https://x"`, which canonicalizes again to `"https://x/"`. -/
theorem canonicalize_not_idempotent :
    canonicalizeUrl (pys "https:////x") = pys "https://x" ∧
    canonicalizeUrl (canonicalizeUrl (pys "https:////x")) = pys "https://x/" ∧
    canonicalizeUrl (canonicalizeUrl (pys "https:////x")) ≠
      canonicalizeUrl (pys "https:////x") := by decide


/-! ## The orchestration graph (`graph/graph.py`) -/

/-- The nodes added by `build_graph`; `terminal` is LangGraph's `END`. -/
inductive GNode where
  | parseRequest | restaurantAgent | attractionsAgent | hotelAgent | transportAgent
  | enrichmentAgent | aggregateResults | terminal
deriving DecidableEq, Repr

/-- The edges declared by `build_graph` (all `add_edge` calls; there are no
conditional edges and no router functions in the graph). -/
def graphEdges : List (GNode × GNode) :=
  [(.parseRequest, .restaurantAgent), (.parseRequest, .attractionsAgent),
   (.parseRequest, .hotelAgent), (.parseRequest, .transportAgent),
   (.restaurantAgent, .enrichmentAgent), (.attractionsAgent, .enrichmentAgent),
   (.hotelAgent, .enrichmentAgent), (.transportAgent, .enrichmentAgent),
   (.enrichmentAgent, .aggregateResults), (.aggregateResults, .terminal)]

/-- `set_entry_point("ParseRequest")`. -/
def entryPoint : GNode := .parseRequest

def successors (n : GNode) : List GNode :=
  (graphEdges.filter (fun e => e.1 = n)).map (·.2)

/-- One LangGraph superstep: the next frontier is every successor of the
current frontier, each node executing once (barrier join). -/
def stepFrontier (ns : List GNode) : List GNode := (ns.flatMap successors).dedup

def frontiers : Nat → List GNode
  | 0 => [entryPoint]
  | k + 1 => stepFrontier (frontiers k)

/-- How many times a node executes in one run (the graph empties after five
supersteps, see `graph_single_enrichment_pass`). -/
def execCount (n : GNode) : Nat := ((List.range 6).flatMap frontiers).count n

/-- Modelled from the spec: the Convergence Controller's routing rule
("if `gap_ratio > 0.5` and `loop_count < loop_cap` (default 2), route back to
the Resolver").  No such router, `gap_ratio`, `loop_count` or `loop_cap`
exists anywhere in the source. -/
def specRoutesBack (gapRatio : ℚ) (loopCount : Nat) : Bool :=
  decide ((1 : ℚ) / 2 < gapRatio) && decide (loopCount < 2)

/-- The spec's default `loop_cap`. -/
def specLoopCap : Nat := 2

/-! ## `graph/nodes/parse.py` -/

/-- The state fields read by `parse_request`: the `constraints` dict and the
prompt (non-dict `constraints` values are not modelled). -/
structure ParseInput where
  constraints : Dict
  prompt : PyStr

structure ParseOutput where
  constraints : Dict
  warnings : List PyStr

/-- The fallback constraints built by `parse_request`'s `except` branch
(graceful degradation). -/
def fallbackConstraints (today : PyStr) : Dict :=
  [(pys "origin", .str (pys "Unknown")),
   (pys "destination", .str (pys "Unknown")),
   (pys "departing_date", .str today),
   (pys "returning_date", .none),
   (pys "interests", .list []),
   (pys "budget", .str (pys "moderate"))]

/-- `parse_request`: `llmResult` is the Structured-Extraction call
(`.error e` models a raised exception, which the function catches); `today`
is `datetime.now(timezone.utc)`'s date.  Note the function returns a partial
update on every path — it never raises.  (The fast path at lines 52–67 is
unreachable: it requires non-empty `constraints`, which already returned at
line 34; it is elided here.) -/
def parseRequest (llmResult : Except PyStr Dict) (today : PyStr)
    (st : ParseInput) : ParseOutput :=
  if !st.constraints.isEmpty then ⟨st.constraints, []⟩
  else if st.prompt = [] then ⟨[], [pys "No prompt provided"]⟩
  else
    match llmResult with
    | .ok c => ⟨c, []⟩
    | .error e =>
      ⟨fallbackConstraints today, [pys "Failed to parse request: " ++ e]⟩


/-! ## `agents/enrichment.py` — the Resolver's Tavily call budget

The network and LLM are modelled as oracles: `tavilySearch`, `tavilyExtract`
and `tavilyMap` give the Search-Service response for each request (`.error e`
models a raised exception), and `llm` gives the outcome of
`_parse_page_with_llm`'s structured call (`none` models both an LLM failure
and a missing result).  The `CallSt` state carries the `tavily_calls` counter
and, for the verification, the ordered log of calls actually dispatched. -/

def TAVILY_CALL_CAP : Nat := 20
def RESOLVE_ITEMS_CAP : Nat := 6
def PHASE1_CAP : Nat := 4

/-- One outbound Tavily (Search-Service) call. -/
inductive TCall where
  | search (query : PyStr)
  | extract (urls : List PyStr)
  | map (url : PyStr)

/-- `tavily_calls` plus the log of dispatched calls. -/
structure CallSt where
  calls : Nat
  log : List TCall

/-- `_take_call` (enrichment.py lines 216–221): refuse at the cap, else
increment the counter — before any call is dispatched. -/
def _take_call (st : CallSt) : Bool × CallSt :=
  if TAVILY_CALL_CAP ≤ st.calls then (false, st)
  else (true, ⟨st.calls + 1, st.log⟩)

/-- An `await self.deps.tavily.*` dispatch: appends to the call log. -/
def dispatch (c : TCall) (st : CallSt) : CallSt := ⟨st.calls, st.log ++ [c]⟩

/-- An item as collected by `_collect_items` (absent `name`/`city` are the
empty string). -/
structure EItem where
  id : PyStr
  name : PyStr
  city : PyStr
  url : PyStr
  type : PyStr

/-- A Tavily result entry: the `url` and `raw_content` fields read by the
enrichment code (absent fields are the empty string). -/
structure Page where
  url : PyStr
  raw_content : PyStr

structure EnrichOracles where
  tavilySearch : PyStr → Except PyStr (List Page)
  tavilyExtract : List PyStr → Except PyStr (List Page)
  tavilyMap : PyStr → Except PyStr (List Page)
  llm : Page → EItem → Option Dict

/-- Generic insertion-ordered dict lookup (`m.get(k)`). -/
def assocFind (m : List (PyStr × α)) (k : PyStr) : Option α :=
  (m.find? (fun kv => kv.1 = k)).map (·.2)

/-- Generic insertion-ordered dict assignment (`m[k] = v`). -/
def assocSet (m : List (PyStr × α)) (k : PyStr) (v : α) : List (PyStr × α) :=
  if m.any (fun kv => kv.1 = k) then m.map (fun kv => if kv.1 = k then (k, v) else kv)
  else m ++ [(k, v)]

/-- `m.setdefault(k, {})` followed by an in-place mutation `f` of the entry. -/
def dictSetdefaultApply (m : List (PyStr × Dict)) (k : PyStr) (f : Dict → Dict) :
    List (PyStr × Dict) :=
  if m.any (fun kv => kv.1 = k) then m.map (fun kv => if kv.1 = k then (k, f kv.2) else kv)
  else m ++ [(k, f [])]

/-- Python substring containment `needle in hay`. -/
def isSubstr (needle : PyStr) : PyStr → Bool
  | [] => needle.isEmpty
  | c :: rest => (c :: rest).take needle.length == needle || isSubstr needle rest

/-- The right-boundary class `[/?#_-]` of `_LOW_QUALITY_RE`. -/
def lqBoundary (c : Char) : Bool := c == '/' || c == '?' || c == '#' || c == '_' || c == '-'

def lqWords : List PyStr :=
  [pys "best", pys "top", pys "guide", pys "things-to-do", pys "things_to_do",
   pys "blog", pys "list"]

/-- Does some alternative of `_LOW_QUALITY_RE` match at the head of `s`
(which in the regex sits at the string start or right after a `/`)? -/
def lqMatchAt (s : PyStr) : Bool :=
  lqWords.any fun w =>
    s.take w.length == w &&
      (match s.drop w.length with
       | [] => true
       | c :: _ => lqBoundary c)

def lqScanAux : PyStr → Bool
  | [] => false
  | c :: rest => (c == '/' && lqMatchAt rest) || lqScanAux rest

/-- `_is_low_quality_url`: empty urls are low quality; otherwise lowercase,
strip the query, and search for `_LOW_QUALITY_RE`. -/
def _is_low_quality_url (url : PyStr) : Bool :=
  if url.isEmpty then true
  else
    let u := (pyLower url).takeWhile (fun c => c ≠ '?')
    lqMatchAt u || lqScanAux u

/-- `_pick_best` (nested in `_resolve_canonical_urls`): the first result with
a non-empty, non-low-quality url. -/
def _pick_best : List Page → Option PyStr
  | [] => Option.none
  | r :: rest =>
    let url := pyStrip r.url
    if url.isEmpty then _pick_best rest
    else if _is_low_quality_url url then _pick_best rest
    else some url

/-- `_pick_by_keywords` (nested in `_map_subpages`). -/
def _pick_by_keywords (urls : List PyStr) (keywords : List PyStr) : Option PyStr :=
  urls.find? (fun u => keywords.any (fun k => isSubstr k (pyLower u)))

/-- `if not take_call(): ... else: await self.deps.tavily.search(q)` — the
shape of every search site: reserve budget, then dispatch. -/
def searchStep (o : EnrichOracles) (q : PyStr) (st : CallSt) :
    Option (Except PyStr (List Page)) × CallSt :=
  match _take_call st with
  | (false, st) => (Option.none, st)
  | (true, st) => (some (o.tavilySearch q), dispatch (.search q) st)

/-- `await self.deps.tavily.extract(urls)` (budget already reserved by the
caller). -/
def extractStep (o : EnrichOracles) (urls : List PyStr) (st : CallSt) :
    Except PyStr (List Page) × CallSt :=
  (o.tavilyExtract urls, dispatch (.extract urls) st)

/-- `_resolve_canonical_urls`: 1–2 guarded searches depending on item type.
A search exception propagates (as `.error`). -/
def _resolve_canonical_urls (o : EnrichOracles) (item_type name city : PyStr)
    (st : CallSt) : Except PyStr (Option PyStr × Option PyStr) × CallSt :=
  let city_part := if city.isEmpty then [] else ' ' :: city
  if item_type = pys "restaurant" then
    match searchStep o (name ++ city_part ++ pys " official site") st with
    | (Option.none, st) => (.ok (Option.none, Option.none), st)
    | (some (.error e), st) => (.error e, st)
    | (some (.ok r1), st) =>
      let canon := _pick_best r1
      match searchStep o (name ++ city_part ++ pys " reservations") st with
      | (Option.none, st) => (.ok (canon, Option.none), st)
      | (some (.error e), st) => (.error e, st)
      | (some (.ok r2), st) => (.ok (canon, _pick_best r2), st)
  else if item_type = pys "attraction" then
    match searchStep o (name ++ city_part ++ pys " official tickets price") st with
    | (Option.none, st) => (.ok (Option.none, Option.none), st)
    | (some (.error e), st) => (.error e, st)
    | (some (.ok r), st) => (.ok (_pick_best r, Option.none), st)
  else if item_type = pys "hotel" then
    match searchStep o (name ++ city_part ++ pys " official site parking") st with
    | (Option.none, st) => (.ok (Option.none, Option.none), st)
    | (some (.error e), st) => (.error e, st)
    | (some (.ok r), st) => (.ok (_pick_best r, Option.none), st)
  else (.ok (Option.none, Option.none), st)

structure MapResult where
  fields : Dict
  extract_urls : List PyStr

/-- `_map_subpages`: one guarded map call; exceptions are caught and yield
the empty result. -/
def _map_subpages (o : EnrichOracles) (item_type canonical_url : PyStr)
    (st : CallSt) : MapResult × CallSt :=
  match _take_call st with
  | (false, st) => (⟨[], []⟩, st)
  | (true, st) =>
    let st := dispatch (.map canonical_url) st
    match o.tavilyMap canonical_url with
    | .error _ => (⟨[], []⟩, st)
    | .ok results =>
      let urls := (results.map (·.url)).filter (fun u => !u.isEmpty)
      if item_type = pys "restaurant" then
        let menu := _pick_by_keywords urls [pys "/menu", pys "menu"]
        let reserve := _pick_by_keywords urls
          [pys "reserve", pys "reservation", pys "book", pys "booking"]
        let fields :=
          (match menu with
           | some m => [(pys "menu_url", PyVal.str m)]
           | Option.none => [])
          ++ (match reserve with
              | some r => [(pys "reservation_url", PyVal.str r)]
              | Option.none => [])
        let extract_urls :=
          (match menu with | some m => [m] | Option.none => [])
          ++ (match reserve with | some r => [r] | Option.none => [])
        let extract_urls := if extract_urls.isEmpty then [canonical_url] else extract_urls
        (⟨fields, extract_urls.take 2⟩, st)
      else if item_type = pys "attraction" then
        (⟨[], [(_pick_by_keywords urls
            [pys "ticket", pys "admission", pys "price", pys "pricing"]).getD
            canonical_url].take 2⟩, st)
      else if item_type = pys "hotel" then
        (⟨[], [(_pick_by_keywords urls
            [pys "parking", pys "amenities", pys "policy"]).getD
            canonical_url].take 2⟩, st)
      else (⟨[], ([] : List PyStr).take 2⟩, st)

/-- The `needs` flag of `_pick_resolve_candidates`. -/
def needsResolve (t : PyStr) (e : Dict) : Bool :=
  if t = pys "restaurant" then
    !pyTruthy (dictGetD e (pys "menu_url") .none)
      || !pyTruthy (dictGetD e (pys "reservation_url") .none)
  else if t = pys "attraction" then !pyTruthy (dictGetD e (pys "admission_price") .none)
  else if t = pys "hotel" then !pyTruthy (dictGetD e (pys "parking_details") .none)
  else false

/-- `_pick_resolve_candidates`: bucket by type (restaurant, attraction,
hotel), keep items with an id that need resolution or have a low-quality
url, take the first two of each bucket. -/
def _pick_resolve_candidates (items : List EItem) (enriched : EnrichedMap) :
    List EItem :=
  let bucket := fun (t : PyStr) =>
    (items.filter fun it =>
      it.type == t && !it.id.isEmpty &&
        (needsResolve t (enrichedGet enriched (.str it.id))
          || _is_low_quality_url it.url)).take 2
  bucket (pys "restaurant") ++ bucket (pys "attraction") ++ bucket (pys "hotel")

/-- `_build_raw_content_map`: canonicalized url → raw_content over the raw
search results in state (all five `raw_*` lists, in order; later entries
overwrite). -/
def _build_raw_content_map (raw_items : List Page) : List (PyStr × PyStr) :=
  raw_items.foldl
    (fun m p =>
      if !p.url.isEmpty && !p.raw_content.isEmpty then
        assocSet m (canonicalizeUrl p.url) p.raw_content
      else m) []

/-- The dict comprehension `{canonicalize_url(p["url"]): p for p in pages if
p.get("raw_content")}`. -/
def buildPageByUrl (pages : List Page) : List (PyStr × Page) :=
  pages.foldl
    (fun m p =>
      if !p.raw_content.isEmpty then assocSet m (canonicalizeUrl p.url) p else m) []

/-- `_parse_page_with_llm`: `None` without content; otherwise the structured
LLM call on the first 5000 characters (`o.llm` returns `none` on failure). -/
def _parse_page_with_llm (o : EnrichOracles) (page : Page) (item : EItem) :
    Option Dict :=
  if page.raw_content.isEmpty then Option.none
  else o.llm ⟨page.url, page.raw_content.take 5000⟩ item

/-- The phase-2 accumulators `resolved_targets`, `urls_to_extract`,
`url_to_item`. -/
structure Phase2Acc where
  resolved_targets : List (PyStr × Dict)
  urls_to_extract : List PyStr
  url_to_item : List (PyStr × EItem)

/-- `for u in mapped.get("extract_urls", []): if u not in url_to_item: ...`. -/
def addExtractUrls (item : EItem) : Phase2Acc → List PyStr → Phase2Acc
  | acc, [] => acc
  | acc, u :: us =>
    if (assocFind acc.url_to_item u).isSome then addExtractUrls item acc us
    else
      addExtractUrls item
        { acc with
            urls_to_extract := acc.urls_to_extract ++ [u],
            url_to_item := acc.url_to_item ++ [(u, ⟨item.id, [], [], u, item.type⟩)] }
        us

/-- The phase-2 `for item in resolve_candidates` loop of
`_extract_and_parse`, with its `break` when fewer than 4 calls remain. -/
def phase2Loop (o : EnrichOracles) :
    List EItem → Phase2Acc → CallSt → Except PyStr Phase2Acc × CallSt
  | [], acc, st => (.ok acc, st)
  | item :: rest, acc, st =>
    if TAVILY_CALL_CAP - st.calls < 4 then (.ok acc, st)
    else
      let name := pyStrip item.name
      let city := pyStrip item.city
      if !(item.type == pys "restaurant" || item.type == pys "attraction"
          || item.type == pys "hotel") then
        phase2Loop o rest acc st
      else if name.isEmpty then phase2Loop o rest acc st
      else
        match _resolve_canonical_urls o item.type name city st with
        | (.error e, st) => (.error e, st)
        | (.ok (canon, provider), st) =>
          let acc :=
            match provider with
            | some p =>
              { acc with
                  resolved_targets := dictSetdefaultApply acc.resolved_targets item.id
                    (fun d => dictSet d (pys "reservation_url") (.str p)) }
            | Option.none => acc
          match canon with
          | Option.none => phase2Loop o rest acc st
          | some cu =>
            let (mapped, st) := _map_subpages o item.type cu st
            let acc :=
              { acc with
                  resolved_targets := dictSetdefaultApply acc.resolved_targets item.id
                    (fun d => dictUpdate d mapped.fields) }
            phase2Loop o rest (addExtractUrls item acc mapped.extract_urls) st

/-- The phase-1 extract fallback of `_extract_and_parse`: one guarded
Tavily extract for up to `remaining_cap` unmatched items (the call is
reserved before `fallback_urls` is checked; an empty url list burns the
reservation without dispatching, exactly as in the source). -/
def phase1Fallback (o : EnrichOracles) (valid_pairs : List (Page × EItem))
    (unmatched_items : List EItem) (remaining_cap : Nat) (st : CallSt) :
    List (Page × EItem) × CallSt :=
  if !unmatched_items.isEmpty && decide (0 < remaining_cap) then
    match _take_call st with
    | (false, st) => (valid_pairs, st)
    | (true, st) =>
      let fallback_items := unmatched_items.take remaining_cap
      let fallback_urls := (fallback_items.map (·.url)).filter (fun u => !u.isEmpty)
      if fallback_urls.isEmpty then (valid_pairs, st)
      else
        match extractStep o fallback_urls st with
        | (.error _, st) => (valid_pairs, st)
        | (.ok pages, st) =>
          let page_by_url := buildPageByUrl pages
          (valid_pairs ++ fallback_items.filterMap (fun it =>
            (assocFind page_by_url (canonicalizeUrl it.url)).map (fun p => (p, it))),
           st)
  else (valid_pairs, st)

/-- The phase-2 batch extract of `_extract_and_parse`: one guarded Tavily
extract of the discovered subpages, merging parsed non-empty fields into
`enriched` with dict `update` (overwrite) semantics. -/
def phase2Extract (o : EnrichOracles) (acc : Phase2Acc) (enriched : EnrichedMap)
    (st : CallSt) : EnrichedMap × CallSt :=
  if !acc.urls_to_extract.isEmpty then
    match _take_call st with
    | (false, st) => (enriched, st)
    | (true, st) =>
      match extractStep o (acc.urls_to_extract.take 20) st with
      | (.error _, st) => (enriched, st)
      | (.ok pages2, st) =>
        (pages2.foldl
          (fun e page =>
            match assocFind acc.url_to_item page.url with
            | Option.none => e
            | some it =>
              match _parse_page_with_llm o page it with
              | Option.none => e
              | some r =>
                if r.isEmpty then e
                else dictSetdefaultApply e it.id
                  (fun d => dictUpdate d (r.filter (fun kv => !isEmptyVal kv.2))))
          enriched, st)
  else (enriched, st)

/-- `_extract_and_parse`: phase 1 (state raw_content + one guarded fallback
extract, one LLM batch) then phase 2 (guarded resolution loop, one guarded
batch extract, first-write-wins merge of resolved url fields). -/
def _extract_and_parse (o : EnrichOracles) (items : List EItem)
    (raw_items : List Page) (st : CallSt) : Except PyStr EnrichedMap × CallSt :=
  let urls := (items.map (·.url)).filter (fun u => !u.isEmpty)
  if urls.isEmpty then (.ok [], st)
  else
    let rc_map := _build_raw_content_map raw_items
    let valid_pairs := items.filterMap fun it =>
      let rc := (assocFind rc_map (canonicalizeUrl it.url)).getD []
      if rc.isEmpty then Option.none else some (Page.mk it.url rc, it)
    let unmatched_items := items.filter fun it =>
      ((assocFind rc_map (canonicalizeUrl it.url)).getD []).isEmpty
    let (valid_pairs, st) : List (Page × EItem) × CallSt :=
      phase1Fallback o valid_pairs unmatched_items (PHASE1_CAP - valid_pairs.length) st
    let valid_pairs := valid_pairs.take PHASE1_CAP
    let enriched : EnrichedMap := valid_pairs.foldl
      (fun acc pi =>
        match _parse_page_with_llm o pi.1 pi.2 with
        | Option.none => acc
        | some r => if r.isEmpty then acc else assocSet acc pi.2.id r) []
    let resolve_candidates := (_pick_resolve_candidates items enriched).take RESOLVE_ITEMS_CAP
    if !resolve_candidates.isEmpty && decide (st.calls < TAVILY_CALL_CAP) &&
        decide (TAVILY_CALL_CAP - st.calls < 4) then
      (.ok enriched, st)
    else
      match phase2Loop o resolve_candidates ⟨[], [], []⟩ st with
      | (.error e, st) => (.error e, st)
      | (.ok acc, st) =>
        let (enriched, st) : EnrichedMap × CallSt := phase2Extract o acc enriched st
        let enriched := acc.resolved_targets.foldl
          (fun e p =>
            if p.2.isEmpty then e
            else dictSetdefaultApply e p.1 (fun d => mergeEnrichedItem d p.2)) enriched
        (.ok enriched, st)

/-- The budget invariant: calls are reserved before they are dispatched
(`log.length ≤ calls`) and the counter never exceeds the cap. -/
def CallInv (st : CallSt) : Prop :=
  st.log.length ≤ st.calls ∧ st.calls ≤ TAVILY_CALL_CAP


theorem take_call_inv {st : CallSt} {ok : Bool} {st' : CallSt}
    (he : _take_call st = (ok, st')) (h : CallInv st) :
    CallInv st' ∧ (ok = true → st'.log.length < st'.calls) := by
  unfold _take_call at he
  split at he
  · injection he with h1 h2
    subst h2
    exact ⟨h, by intro hc; rw [← h1] at hc; cases hc⟩
  · injection he with h1 h2
    subst h2
    rename_i hlt
    refine ⟨⟨Nat.le_succ_of_le h.1, Nat.succ_le_of_lt (Nat.lt_of_not_le hlt)⟩, ?_⟩
    intro _
    exact Nat.lt_succ_of_le h.1

theorem dispatch_inv {c : TCall} {st : CallSt}
    (h1 : st.log.length < st.calls) (h2 : st.calls ≤ TAVILY_CALL_CAP) :
    CallInv (dispatch c st) := by
  refine ⟨?_, h2⟩
  simp only [dispatch, List.length_append, List.length_cons, List.length_nil]
  omega

theorem searchStep_inv {o : EnrichOracles} {q : PyStr} {st : CallSt}
    {r : Option (Except PyStr (List Page))} {st' : CallSt}
    (he : searchStep o q st = (r, st')) (h : CallInv st) : CallInv st' := by
  unfold searchStep at he
  rcases ht : _take_call st with ⟨ok, st1⟩
  rw [ht] at he
  obtain ⟨h1, h2⟩ := take_call_inv ht h
  cases ok
  · injection he with hr hs
    subst hs
    exact h1
  · injection he with hr hs
    subst hs
    exact dispatch_inv (h2 rfl) h1.2

theorem extractStep_inv {o : EnrichOracles} {us : List PyStr} {st : CallSt}
    {r : Except PyStr (List Page)} {st' : CallSt}
    (he : extractStep o us st = (r, st'))
    (h1 : st.log.length < st.calls) (h2 : st.calls ≤ TAVILY_CALL_CAP) :
    CallInv st' := by
  unfold extractStep at he
  injection he with hr hs
  subst hs
  exact dispatch_inv h1 h2

theorem resolve_canonical_urls_inv {o : EnrichOracles} {t n c : PyStr} {st : CallSt}
    {r : Except PyStr (Option PyStr × Option PyStr)} {st' : CallSt}
    (he : _resolve_canonical_urls o t n c st = (r, st')) (h : CallInv st) :
    CallInv st' := by
  unfold _resolve_canonical_urls at he
  dsimp only at he
  split at he <;> [skip; split at he] <;> [skip; skip; split at he]
  all_goals
    first
    | (injection he with hr hs; subst hs; exact h)
    | (split at he <;>
        first
        | (rename_i heq
           injection he with hr hs
           subst hs
           exact searchStep_inv heq h)
        | (rename_i heq
           split at he <;>
             rename_i heq2 <;>
             injection he with hr hs <;>
             subst hs <;>
             exact searchStep_inv heq2 (searchStep_inv heq h)))

theorem map_subpages_inv {o : EnrichOracles} {t u : PyStr} {st : CallSt}
    {r : MapResult} {st' : CallSt}
    (he : _map_subpages o t u st = (r, st')) (h : CallInv st) : CallInv st' := by
  unfold _map_subpages at he
  rcases ht : _take_call st with ⟨ok, st1⟩
  rw [ht] at he
  obtain ⟨h1, h2⟩ := take_call_inv ht h
  cases ok
  · injection he with hr hs
    subst hs
    exact h1
  · have hd : CallInv (dispatch (.map u) st1) := dispatch_inv (h2 rfl) h1.2
    dsimp only at he
    split at he
    · injection he with hr hs
      subst hs
      exact hd
    · split at he <;> [skip; split at he] <;> [skip; skip; split at he] <;>
        (injection he with hr hs; subst hs; exact hd)

theorem phase2Loop_inv {o : EnrichOracles} :
    ∀ {cands : List EItem} {acc : Phase2Acc} {st : CallSt}
      {r : Except PyStr Phase2Acc} {st' : CallSt},
      phase2Loop o cands acc st = (r, st') → CallInv st → CallInv st'
  | [], acc, st, r, st', he, h => by
    unfold phase2Loop at he
    injection he with hr hs
    subst hs
    exact h
  | item :: rest, acc, st, r, st', he, h => by
    rw [phase2Loop] at he
    split at he
    · injection he with hr hs
      subst hs
      exact h
    · dsimp only at he
      split at he
      · exact phase2Loop_inv he h
      · split at he
        · exact phase2Loop_inv he h
        · split at he
          · injection he with hr hs
            subst hs
            rename_i heq
            exact resolve_canonical_urls_inv heq h
          · rename_i heq
            have h1 := resolve_canonical_urls_inv heq h
            split at he
            · exact phase2Loop_inv he h1
            · rcases hm : _map_subpages o item.type _ _ with ⟨mapped, st2⟩
              rw [hm] at he
              exact phase2Loop_inv he (map_subpages_inv hm h1)


theorem phase1Fallback_inv {o : EnrichOracles} {vp : List (Page × EItem)}
    {um : List EItem} {rc : Nat} {st : CallSt} {r : List (Page × EItem)}
    {st' : CallSt}
    (he : phase1Fallback o vp um rc st = (r, st')) (h : CallInv st) :
    CallInv st' := by
  unfold phase1Fallback at he
  split at he
  · rcases ht : _take_call st with ⟨ok, st1⟩
    rw [ht] at he
    obtain ⟨h1, h2⟩ := take_call_inv ht h
    cases ok
    · injection he with hr hs
      subst hs
      exact h1
    · dsimp only at he
      split at he
      · injection he with hr hs
        subst hs
        exact h1
      · split at he <;>
          rename_i heq <;>
          injection he with hr hs <;>
          subst hs <;>
          exact extractStep_inv heq (h2 rfl) h1.2
  · injection he with hr hs
    subst hs
    exact h

theorem phase2Extract_inv {o : EnrichOracles} {acc : Phase2Acc}
    {en : EnrichedMap} {st : CallSt} {r : EnrichedMap} {st' : CallSt}
    (he : phase2Extract o acc en st = (r, st')) (h : CallInv st) :
    CallInv st' := by
  unfold phase2Extract at he
  split at he
  · rcases ht : _take_call st with ⟨ok, st1⟩
    rw [ht] at he
    obtain ⟨h1, h2⟩ := take_call_inv ht h
    cases ok
    · dsimp only at he
      injection he with hr hs
      subst hs
      exact h1
    · dsimp only at he
      split at he <;>
        rename_i heq <;>
        injection he with hr hs <;>
        subst hs <;>
        exact extractStep_inv heq (h2 rfl) h1.2
  · injection he with hr hs
    subst hs
    exact h

theorem extract_and_parse_inv {o : EnrichOracles} {items : List EItem}
    {raw_items : List Page} {st : CallSt} {r : Except PyStr EnrichedMap}
    {st' : CallSt}
    (he : _extract_and_parse o items raw_items st = (r, st')) (h : CallInv st) :
    CallInv st' := by
  unfold _extract_and_parse at he
  dsimp only at he
  split at he
  · injection he with hr hs
    subst hs
    exact h
  · rcases h1 : phase1Fallback o _ _ _ st with ⟨vp1, st1⟩
    rw [h1] at he
    have hinv1 : CallInv st1 := phase1Fallback_inv h1 h
    dsimp only at he
    split at he
    · injection he with hr hs
      subst hs
      exact hinv1
    · rcases h2 : phase2Loop o _ ⟨[], [], []⟩ st1 with ⟨r2, st2⟩
      rw [h2] at he
      have hinv2 : CallInv st2 := phase2Loop_inv h2 hinv1
      cases r2 with
      | error e =>
        injection he with hr hs
        subst hs
        exact hinv2
      | ok acc =>
        dsimp only at he
        rcases h3 : phase2Extract o acc _ st2 with ⟨en3, st3⟩
        rw [h3] at he
        injection he with hr hs
        subst hs
        exact phase2Extract_inv h3 hinv2

/-! ## Character-class transport under `lowerChar` (for the reparse lemmas) -/

theorem isAsciiUpper_iff (c : Char) : isAsciiUpper c = true ↔ 65 ≤ c.toNat ∧ c.toNat ≤ 90 := by
  simp only [isAsciiUpper, Bool.and_eq_true, decide_eq_true_eq]
  exact Iff.rfl

theorem isAsciiLower_iff (c : Char) : isAsciiLower c = true ↔ 97 ≤ c.toNat ∧ c.toNat ≤ 122 := by
  simp only [isAsciiLower, Bool.and_eq_true, decide_eq_true_eq]
  exact Iff.rfl

theorem isAsciiDigit_iff (c : Char) : isAsciiDigit c = true ↔ 48 ≤ c.toNat ∧ c.toNat ≤ 57 := by
  simp only [isAsciiDigit, Bool.and_eq_true, decide_eq_true_eq]
  exact Iff.rfl

theorem char_toNat_inj {a b : Char} (h : a.toNat = b.toNat) : a = b :=
  Char.ext (UInt32.ext h)

theorem char_eq_iff_toNat (a b : Char) : a = b ↔ a.toNat = b.toNat :=
  ⟨fun h => h ▸ rfl, char_toNat_inj⟩

theorem isC0OrSpace_iff (c : Char) : isC0OrSpace c = true ↔ c.toNat ≤ 32 := by
  simp only [isC0OrSpace, decide_eq_true_eq]

theorem isUnsafeUrlChar_iff (c : Char) :
    isUnsafeUrlChar c = true ↔ c.toNat = 9 ∨ c.toNat = 13 ∨ c.toNat = 10 := by
  simp only [isUnsafeUrlChar, Bool.or_eq_true, decide_eq_true_eq, char_eq_iff_toNat]
  rw [show ('\t' : Char).toNat = 9 from rfl, show ('\r' : Char).toNat = 13 from rfl,
    show ('\n' : Char).toNat = 10 from rfl]
  omega

theorem isNetlocDelim_iff (c : Char) :
    isNetlocDelim c = true ↔ c.toNat = 47 ∨ c.toNat = 63 ∨ c.toNat = 35 := by
  simp only [isNetlocDelim, Bool.or_eq_true, decide_eq_true_eq, char_eq_iff_toNat]
  rw [show ('/' : Char).toNat = 47 from rfl, show ('?' : Char).toNat = 63 from rfl,
    show ('#' : Char).toNat = 35 from rfl]
  omega

theorem isAsciiAlpha_iff (c : Char) : isAsciiAlpha c = true ↔
    (65 ≤ c.toNat ∧ c.toNat ≤ 90) ∨ (97 ≤ c.toNat ∧ c.toNat ≤ 122) := by
  simp only [isAsciiAlpha, Bool.or_eq_true, isAsciiUpper_iff, isAsciiLower_iff]

theorem schemeChar_iff (c : Char) : schemeChar c = true ↔
    (65 ≤ c.toNat ∧ c.toNat ≤ 90) ∨ (97 ≤ c.toNat ∧ c.toNat ≤ 122) ∨
    (48 ≤ c.toNat ∧ c.toNat ≤ 57) ∨ c.toNat = 43 ∨ c.toNat = 45 ∨ c.toNat = 46 := by
  simp only [schemeChar, Bool.or_eq_true, isAsciiAlpha_iff, isAsciiDigit_iff,
    decide_eq_true_eq, char_eq_iff_toNat]
  rw [show ('+' : Char).toNat = 43 from rfl, show ('-' : Char).toNat = 45 from rfl,
    show ('.' : Char).toNat = 46 from rfl]
  omega

theorem lowerChar_toNat (c : Char) (h : isAsciiUpper c = true) :
    (lowerChar c).toNat = c.toNat + 32 := by
  rw [lowerChar, if_pos h]
  have hb := (isAsciiUpper_iff c).mp h
  exact toNat_ofNat_valid _ (Or.inl (by omega))

theorem lowerChar_eq_self (c : Char) (h : isAsciiUpper c = false) : lowerChar c = c := by
  rw [lowerChar, if_neg (by simp [h])]

theorem lowerChar_lowerChar (c : Char) : lowerChar (lowerChar c) = lowerChar c := by
  by_cases h : isAsciiUpper c = true
  · have ht := lowerChar_toNat c h
    have hb := (isAsciiUpper_iff c).mp h
    refine lowerChar_eq_self _ ?_
    rw [Bool.eq_false_iff]
    intro hu
    have := (isAsciiUpper_iff _).mp hu
    omega
  · have hfix : lowerChar c = c := lowerChar_eq_self c (Bool.eq_false_iff.mpr h)
    rw [hfix, hfix]

theorem pyLower_pyLower (s : PyStr) : pyLower (pyLower s) = pyLower s := by
  unfold pyLower
  rw [List.map_map]
  exact List.map_congr_left (fun c _ => lowerChar_lowerChar c)

theorem isAsciiAlpha_lowerChar (c : Char) : isAsciiAlpha (lowerChar c) = isAsciiAlpha c := by
  by_cases h : isAsciiUpper c = true
  · have ht := lowerChar_toNat c h
    have hb := (isAsciiUpper_iff c).mp h
    rw [Bool.eq_iff_iff, isAsciiAlpha_iff, isAsciiAlpha_iff, ht]
    omega
  · rw [lowerChar_eq_self c (Bool.eq_false_iff.mpr h)]

theorem schemeChar_lowerChar (c : Char) : schemeChar (lowerChar c) = schemeChar c := by
  by_cases h : isAsciiUpper c = true
  · have ht := lowerChar_toNat c h
    have hb := (isAsciiUpper_iff c).mp h
    rw [Bool.eq_iff_iff, schemeChar_iff, schemeChar_iff, ht]
    omega
  · rw [lowerChar_eq_self c (Bool.eq_false_iff.mpr h)]

theorem isNetlocDelim_lowerChar (c : Char) : isNetlocDelim (lowerChar c) = isNetlocDelim c := by
  by_cases h : isAsciiUpper c = true
  · have ht := lowerChar_toNat c h
    have hb := (isAsciiUpper_iff c).mp h
    rw [Bool.eq_iff_iff, isNetlocDelim_iff, isNetlocDelim_iff, ht]
    omega
  · rw [lowerChar_eq_self c (Bool.eq_false_iff.mpr h)]

theorem isUnsafeUrlChar_lowerChar (c : Char) :
    isUnsafeUrlChar (lowerChar c) = isUnsafeUrlChar c := by
  by_cases h : isAsciiUpper c = true
  · have ht := lowerChar_toNat c h
    have hb := (isAsciiUpper_iff c).mp h
    rw [Bool.eq_iff_iff, isUnsafeUrlChar_iff, isUnsafeUrlChar_iff, ht]
    omega
  · rw [lowerChar_eq_self c (Bool.eq_false_iff.mpr h)]

theorem lowerChar_eq_lbracket (c : Char) : lowerChar c = '[' ↔ c = '[' := by
  by_cases h : isAsciiUpper c = true
  · have ht := lowerChar_toNat c h
    have hb := (isAsciiUpper_iff c).mp h
    rw [char_eq_iff_toNat, char_eq_iff_toNat, ht,
      show ('[' : Char).toNat = 91 from rfl]
    omega
  · rw [lowerChar_eq_self c (Bool.eq_false_iff.mpr h)]

theorem lowerChar_eq_rbracket (c : Char) : lowerChar c = ']' ↔ c = ']' := by
  by_cases h : isAsciiUpper c = true
  · have ht := lowerChar_toNat c h
    have hb := (isAsciiUpper_iff c).mp h
    rw [char_eq_iff_toNat, char_eq_iff_toNat, ht,
      show (']' : Char).toNat = 93 from rfl]
    omega
  · rw [lowerChar_eq_self c (Bool.eq_false_iff.mpr h)]

theorem mem_pyLower_lbracket (s : PyStr) : '[' ∈ pyLower s ↔ '[' ∈ s := by
  unfold pyLower
  rw [List.mem_map]
  constructor
  · rintro ⟨c, hc, he⟩
    exact (lowerChar_eq_lbracket c).mp he ▸ hc
  · intro hc
    refine ⟨'[', hc, ?_⟩
    exact lowerChar_eq_self _ (by decide)

theorem mem_pyLower_rbracket (s : PyStr) : ']' ∈ pyLower s ↔ ']' ∈ s := by
  unfold pyLower
  rw [List.mem_map]
  constructor
  · rintro ⟨c, hc, he⟩
    exact (lowerChar_eq_rbracket c).mp he ▸ hc
  · intro hc
    refine ⟨']', hc, ?_⟩
    exact lowerChar_eq_self _ (by decide)

theorem schemeChar_not_unsafe (c : Char) (h : schemeChar c = true) :
    isUnsafeUrlChar c = false := by
  have hs := (schemeChar_iff c).mp h
  rw [Bool.eq_false_iff]
  intro hu
  have := (isUnsafeUrlChar_iff c).mp hu
  omega

theorem schemeChar_ne_colon (c : Char) (h : schemeChar c = true) : c ≠ ':' := by
  have hs := (schemeChar_iff c).mp h
  intro hx
  rw [char_eq_iff_toNat, show (':' : Char).toNat = 58 from rfl] at hx
  omega

theorem isAsciiAlpha_not_c0 (c : Char) (h : isAsciiAlpha c = true) :
    isC0OrSpace c = false := by
  have hs := (isAsciiAlpha_iff c).mp h
  rw [Bool.eq_false_iff]
  intro hu
  have := (isC0OrSpace_iff c).mp hu
  omega

/-! ## Reparsing canonical output: stage lemmas -/

theorem mem_removeUnsafe {x : PyStr} {c : Char} (h : c ∈ removeUnsafe x) :
    isUnsafeUrlChar c = false := by
  unfold removeUnsafe at h
  have := (List.mem_filter.mp h).2
  simpa using this

theorem pyLower_all_schemeChar (l : PyStr) :
    (pyLower l).all schemeChar = l.all schemeChar := by
  unfold pyLower
  rw [List.all_map]
  have he : (schemeChar ∘ lowerChar) = schemeChar := funext schemeChar_lowerChar
  rw [he]

theorem splitScheme_spec (url1 : PyStr) :
    pyLower (splitScheme url1).1 = (splitScheme url1).1 ∧
    ((splitScheme url1).1).all schemeChar = true ∧
    ((splitScheme url1).1 ≠ [] →
      isAsciiAlpha (((splitScheme url1).1).headD ' ') = true) ∧
    (∀ c ∈ (splitScheme url1).2, c ∈ url1) := by
  unfold splitScheme
  split
  · rename_i i hf
    split
    · rename_i hcond
      obtain ⟨hi, halpha, hsch⟩ := hcond
      refine ⟨pyLower_pyLower _, ?_, ?_, ?_⟩
      · rw [pyLower_all_schemeChar]
        exact hsch
      · intro hne
        cases hu : url1 with
        | nil => subst hu; simp [pyLower] at hne
        | cons c cs =>
          subst hu
          cases i with
          | zero => omega
          | succ j =>
            simp only [List.take_succ_cons, pyLower, List.map_cons, List.headD_cons]
            rw [isAsciiAlpha_lowerChar]
            simpa using halpha
      · intro c hc
        exact (List.drop_sublist _ _).subset hc
    · exact ⟨rfl, rfl, fun hne => absurd rfl hne, fun c hc => hc⟩
  · exact ⟨rfl, rfl, fun hne => absurd rfl hne, fun c hc => hc⟩

theorem splitNetloc_spec {rest n r2 : PyStr} (h : splitNetloc rest = some (n, r2)) :
    n.all (fun c => !isNetlocDelim c) = true ∧
    (∀ c ∈ n, c ∈ rest) ∧
    ¬('[' ∈ n ∧ ']' ∉ n) ∧ ¬(']' ∈ n ∧ '[' ∉ n) ∧
    (∀ c ∈ r2, c ∈ rest) := by
  unfold splitNetloc at h
  split at h
  · dsimp only at h
    split at h
    · exact absurd h (by simp)
    · rename_i hbr
      injection h with h1
      injection h1 with hn hr
      subst hn
      subst hr
      push_neg at hbr
      refine ⟨?_, ?_, ?_, ?_, ?_⟩
      · rw [List.all_eq_true]
        intro c hc
        simpa using List.mem_takeWhile_imp hc
      · intro c hc
        exact (List.drop_sublist _ _).subset ((List.takeWhile_sublist _).subset hc)
      · rintro ⟨hin, hout⟩
        exact hout (hbr.1 hin)
      · rintro ⟨hin, hout⟩
        exact hout (hbr.2 hin)
      · intro c hc
        exact (List.drop_sublist _ _).subset ((List.dropWhile_sublist _).subset hc)
  · injection h with h1
    injection h1 with hn hr
    subst hn
    subst hr
    exact ⟨rfl, by simp, by simp, by simp, fun c hc => hc⟩

theorem splitFirst_fst (sep : Char) (s : PyStr) :
    (splitFirst sep s).1 = s.takeWhile (· ≠ sep) := by
  unfold splitFirst
  dsimp only
  split <;> rfl

theorem splitFragment_spec (r2 : PyStr) :
    '#' ∉ (splitFragment r2).1 ∧ (∀ c ∈ (splitFragment r2).1, c ∈ r2) := by
  unfold splitFragment
  split
  · dsimp only
    rw [splitFirst_fst]
    constructor
    · intro hmem
      have := List.mem_takeWhile_imp hmem
      simp at this
    · intro c hc
      exact (List.takeWhile_sublist _).subset hc
  · rename_i hno
    exact ⟨hno, fun c hc => hc⟩

theorem splitQuery_spec (p : PyStr) :
    '?' ∉ (splitQuery p).1 ∧ (∀ c ∈ (splitQuery p).1, c ∈ p) := by
  unfold splitQuery
  split
  · dsimp only
    rw [splitFirst_fst]
    constructor
    · intro hmem
      have := List.mem_takeWhile_imp hmem
      simp at this
    · intro c hc
      exact (List.takeWhile_sublist _).subset hc
  · rename_i hno
    exact ⟨hno, fun c hc => hc⟩

theorem pyUrlsplit_spec {u : PyStr} {s : SplitResult} (h : pyUrlsplit u = some s) :
    pyLower s.scheme = s.scheme ∧
    s.scheme.all schemeChar = true ∧
    (s.scheme ≠ [] → isAsciiAlpha (s.scheme.headD ' ') = true) ∧
    s.netloc.all (fun c => !isNetlocDelim c && !isUnsafeUrlChar c) = true ∧
    ¬('[' ∈ s.netloc ∧ ']' ∉ s.netloc) ∧
    ¬(']' ∈ s.netloc ∧ '[' ∉ s.netloc) ∧
    s.path.all (fun c => !isUnsafeUrlChar c) = true ∧
    '?' ∉ s.path ∧ '#' ∉ s.path := by
  unfold pyUrlsplit at h
  dsimp only at h
  rcases hn : splitNetloc (splitScheme (removeUnsafe (u.dropWhile isC0OrSpace))).2
    with - | ⟨n, r2⟩
  · rw [hn] at h
    exact absurd h (by simp)
  · rw [hn] at h
    dsimp only at h
    injection h with h1
    subst h1
    obtain ⟨hs1, hs2, hs3, hs4⟩ := splitScheme_spec (removeUnsafe (u.dropWhile isC0OrSpace))
    obtain ⟨hn1, hn2, hn3, hn4, hn5⟩ := splitNetloc_spec hn
    obtain ⟨hf1, hf2⟩ := splitFragment_spec r2
    obtain ⟨hq1, hq2⟩ := splitQuery_spec (splitFragment r2).1
    refine ⟨hs1, hs2, hs3, ?_, hn3, hn4, ?_, hq1, ?_⟩
    · rw [List.all_eq_true]
      intro c hc
      have hd : isNetlocDelim c = false := by
        have := (List.all_eq_true.mp hn1) c hc
        simpa using this
      have hu : isUnsafeUrlChar c = false :=
        mem_removeUnsafe (hs4 c (hn2 c hc))
      simp [hd, hu]
    · rw [List.all_eq_true]
      intro c hc
      have hu : isUnsafeUrlChar c = false :=
        mem_removeUnsafe (hs4 c (hn5 c (hf2 c (hq2 c hc))))
      simp [hu]
    · intro hmem
      exact hf1 (hq2 '#' hmem)

theorem findIdx?_take_not {p : Char → Bool} :
    ∀ {l : PyStr} {i : Nat}, l.findIdx? p = some i → ∀ x ∈ l.take i, p x = false := by
  intro l
  induction l with
  | nil => intro i h x hx; simp at hx
  | cons c cs ih =>
    intro i h x hx
    rw [List.findIdx?_cons] at h
    by_cases hp : p c = true
    · rw [if_pos hp] at h
      injection h with h1
      subst h1
      simp at hx
    · rw [if_neg hp, List.findIdx?_succ] at h
      obtain ⟨j, hj, hij⟩ := Option.map_eq_some'.mp h
      subst hij
      rw [List.take_succ_cons] at hx
      rcases List.mem_cons.mp hx with hx | hx
      · subst hx
        exact Bool.eq_false_iff.mpr hp
      · exact ih hj x hx

theorem findIdx?_none_not {p : Char → Bool} {l : PyStr} (h : l.findIdx? p = none) :
    ∀ x ∈ l, p x = false := by
  intro x hx
  have := List.findIdx?_eq_none_iff.mp h x hx
  simpa using this

theorem findIdx?_append_cons_self {p : Char → Bool} {a : PyStr} {c : Char} (b : PyStr)
    (ha : ∀ x ∈ a, p x = false) (hc : p c = true) :
    (a ++ c :: b).findIdx? p = some a.length := by
  induction a with
  | nil => rw [List.nil_append, List.findIdx?_cons, if_pos hc]; rfl
  | cons x xs ih =>
    rw [List.cons_append, List.findIdx?_cons,
      if_neg (by simp [ha x (List.mem_cons_self x xs)]), List.findIdx?_succ,
      ih (fun y hy => ha y (List.mem_cons_of_mem x hy))]
    rfl

theorem dropWhile_eq_cons_head {q : Char → Bool} {l : PyStr} {c : Char} {cs : PyStr}
    (h : l.dropWhile q = c :: cs) : q c = false := by
  induction l with
  | nil => simp at h
  | cons x xs ih =>
    rw [List.dropWhile_cons] at h
    by_cases hq : q x = true
    · rw [if_pos hq] at h
      exact ih h
    · rw [if_neg hq] at h
      injection h with h1 h2
      subst h1
      exact Bool.eq_false_iff.mpr hq

/-- After `_splitparams`, the part of the path searched for `;` holds none:
the last segment if the path has a `/`, the whole path otherwise. -/
def noSemiParams (p : PyStr) : Prop :=
  if '/' ∈ p then ';' ∉ lastSlashSeg p else ';' ∉ p

theorem lastSlashSeg_subset (p : PyStr) : ∀ c ∈ lastSlashSeg p, c ∈ p := by
  intro c hc
  unfold lastSlashSeg at hc
  rw [List.mem_reverse] at hc
  have := (List.takeWhile_sublist _).subset hc
  rwa [List.mem_reverse] at this

theorem lastSlashSeg_no_slash (p : PyStr) : '/' ∉ lastSlashSeg p := by
  intro hc
  unfold lastSlashSeg at hc
  rw [List.mem_reverse] at hc
  have := List.mem_takeWhile_imp hc
  simp at this

/-- Decomposition `p = pre ++ lastSlashSeg p` with
`pre = (p.reverse.dropWhile (· ≠ '/')).reverse`. -/
theorem lastSlashSeg_decomp (p : PyStr) :
    p = (p.reverse.dropWhile (· ≠ '/')).reverse ++ lastSlashSeg p := by
  unfold lastSlashSeg
  rw [← List.reverse_append, List.takeWhile_append_dropWhile, List.reverse_reverse]

theorem lastSlashSeg_pre_ends_slash (p : PyStr) (h : '/' ∈ p) :
    ∃ xs : PyStr, (p.reverse.dropWhile (· ≠ '/')).reverse = xs ++ ['/'] := by
  have hne : p.reverse.dropWhile (· ≠ '/') ≠ [] := by
    rw [Ne, List.dropWhile_eq_nil_iff]
    intro hall
    have := hall '/' (List.mem_reverse.mpr h)
    simp at this
  obtain ⟨c, cs, hcs⟩ := List.exists_cons_of_ne_nil hne
  have hc : c = '/' := by simpa using dropWhile_eq_cons_head hcs
  subst hc
  exact ⟨cs.reverse, by rw [hcs]; simp⟩

theorem lastSlashSeg_append_slash (A B : PyStr) (hB : ∀ x ∈ B, x ≠ '/') :
    lastSlashSeg (A ++ ['/'] ++ B) = B := by
  unfold lastSlashSeg
  rw [List.reverse_append, List.reverse_append]
  simp only [List.reverse_cons, List.reverse_nil, List.nil_append,
    List.singleton_append]
  rw [takeWhile_append_cons _ B.reverse '/' A.reverse
    (fun x hx => by simpa using hB x (List.mem_reverse.mp hx)) (by simp)]
  exact List.reverse_reverse _

theorem splitParams_fst_subset (p : PyStr) : ∀ c ∈ (splitParams p).1, c ∈ p := by
  unfold splitParams
  split
  · rename_i hsl
    dsimp only
    split
    · rename_i i hfi
      intro c hc
      rcases List.mem_append.mp hc with hc | hc
      · exact (List.take_sublist _ _).subset hc
      · exact lastSlashSeg_subset p c ((List.take_sublist _ _).subset hc)
    · intro c hc
      exact hc
  · split
    · rename_i i hfi
      intro c hc
      exact (List.take_sublist _ _).subset hc
    · intro c hc
      exact hc

theorem noSemiParams_splitParams (p : PyStr) : noSemiParams (splitParams p).1 := by
  unfold splitParams
  split
  · rename_i hsl
    dsimp only
    split
    · rename_i i hfi
      obtain ⟨xs, hxs⟩ := lastSlashSeg_pre_ends_slash p hsl
      have hlen := congrArg List.length (lastSlashSeg_decomp p)
      rw [List.length_append] at hlen
      have hpre : List.take (p.length - (lastSlashSeg p).length) p =
          (p.reverse.dropWhile (· ≠ '/')).reverse := by
        have h2 : ((p.reverse.dropWhile (· ≠ '/')).reverse ++ lastSlashSeg p).take
            (p.length - (lastSlashSeg p).length) =
            (p.reverse.dropWhile (· ≠ '/')).reverse := List.take_left' (by omega)
        rwa [← lastSlashSeg_decomp p] at h2
      rw [hpre, hxs]
      have hseg : lastSlashSeg (xs ++ ['/'] ++ (lastSlashSeg p).take i) =
          (lastSlashSeg p).take i :=
        lastSlashSeg_append_slash xs _ (fun x hx he =>
          lastSlashSeg_no_slash p ((List.take_sublist _ _).subset (he ▸ hx)))
      have hslash : '/' ∈ xs ++ ['/'] ++ (lastSlashSeg p).take i :=
        List.mem_append.mpr (Or.inl (List.mem_append.mpr
          (Or.inr (List.mem_singleton.mpr rfl))))
      unfold noSemiParams
      rw [if_pos hslash, hseg]
      intro hmem
      have := findIdx?_take_not hfi ';' hmem
      simp at this
    · rename_i hfi
      dsimp only
      unfold noSemiParams
      rw [if_pos hsl]
      intro hmem
      have := findIdx?_none_not hfi ';' hmem
      simp at this
  · rename_i hsl
    split
    · rename_i i hfi
      unfold noSemiParams
      rw [if_neg (fun hmem => hsl ((List.take_sublist _ _).subset hmem))]
      intro hmem
      have := findIdx?_take_not hfi ';' hmem
      simp at this
    · rename_i hfi
      unfold noSemiParams
      rw [if_neg hsl]
      intro hmem
      have := findIdx?_none_not hfi ';' hmem
      simp at this

theorem pyUrlparse_spec {u : PyStr} {p : ParseResult} (h : pyUrlparse u = some p) :
    pyLower p.scheme = p.scheme ∧
    p.scheme.all schemeChar = true ∧
    (p.scheme ≠ [] → isAsciiAlpha (p.scheme.headD ' ') = true) ∧
    p.netloc.all (fun c => !isNetlocDelim c && !isUnsafeUrlChar c) = true ∧
    ¬('[' ∈ p.netloc ∧ ']' ∉ p.netloc) ∧
    ¬(']' ∈ p.netloc ∧ '[' ∉ p.netloc) ∧
    p.path.all (fun c => !isUnsafeUrlChar c) = true ∧
    '?' ∉ p.path ∧ '#' ∉ p.path ∧
    (p.scheme ∈ usesParams → noSemiParams p.path) := by
  unfold pyUrlparse at h
  rcases hs : pyUrlsplit u with - | s
  · rw [hs] at h
    exact absurd h (by simp)
  · rw [hs] at h
    simp only [Option.map_some'] at h
    injection h with h1
    obtain ⟨g1, g2, g3, g4, g5, g6, g7, g8, g9⟩ := pyUrlsplit_spec hs
    by_cases hsemi : s.scheme ∈ usesParams ∧ ';' ∈ s.path
    · rw [if_pos hsemi] at h1
      subst h1
      refine ⟨g1, g2, g3, g4, g5, g6, ?_, ?_, ?_,
        fun _ => noSemiParams_splitParams s.path⟩
      · rw [List.all_eq_true]
        intro c hc
        exact (List.all_eq_true.mp g7) c (splitParams_fst_subset s.path c hc)
      · exact fun hmem => g8 (splitParams_fst_subset s.path '?' hmem)
      · exact fun hmem => g9 (splitParams_fst_subset s.path '#' hmem)
    · rw [if_neg hsemi] at h1
      subst h1
      refine ⟨g1, g2, g3, g4, g5, g6, g7, g8, g9, ?_⟩
      intro hup
      have hns : ';' ∉ s.path := fun hsm => hsemi ⟨hup, hsm⟩
      unfold noSemiParams
      split
      · exact fun hm => hns (lastSlashSeg_subset s.path ';' hm)
      · exact hns

/-! ## Reparsing canonical output: exact computation of each stage -/

theorem splitScheme_reparse {s : PyStr} (r : PyStr) (hne : s ≠ [])
    (halpha : isAsciiAlpha (s.headD ' ') = true)
    (hsch : s.all schemeChar = true) (hlow : pyLower s = s) :
    splitScheme (s ++ ':' :: r) = (s, r) := by
  have hnc : ∀ x ∈ s, (fun x => decide (x = ':')) x = false := fun x hx => by
    simpa using schemeChar_ne_colon x (List.all_eq_true.mp hsch x hx)
  unfold splitScheme
  rw [findIdx?_append_cons_self r hnc (by simp)]
  dsimp only
  have hlen0 : 0 < s.length := List.length_pos.mpr hne
  have htake : (s ++ ':' :: r).take s.length = s := List.take_left' rfl
  have hhead : (s ++ ':' :: r).headD ' ' = s.headD ' ' := by
    cases s with
    | nil => exact absurd rfl hne
    | cons c cs => rfl
  rw [if_pos ⟨hlen0, by rw [hhead]; exact halpha, by rw [htake]; exact hsch⟩]
  rw [htake, hlow]
  have hassoc : s ++ ':' :: r = (s ++ [':']) ++ r := by simp
  rw [hassoc, List.drop_left' (by simp)]

theorem splitNetloc_reparse_netloc (n rest2 : PyStr)
    (hn : ∀ c ∈ n, isNetlocDelim c = false)
    (hbr1 : ¬('[' ∈ n ∧ ']' ∉ n)) (hbr2 : ¬(']' ∈ n ∧ '[' ∉ n))
    (hr : rest2 = [] ∨ ∃ c cs, rest2 = c :: cs ∧ isNetlocDelim c = true) :
    splitNetloc ('/' :: '/' :: (n ++ rest2)) = some (n, rest2) := by
  unfold splitNetloc
  rw [if_pos (show List.take 2 ('/' :: '/' :: (n ++ rest2)) = pys "//" from rfl)]
  dsimp only [List.drop_succ_cons, List.drop_zero]
  have hnall : ∀ c ∈ n, (fun c => !isNetlocDelim c) c = true := by
    intro c hc
    simp [hn c hc]
  have htw : (n ++ rest2).takeWhile (fun c => !isNetlocDelim c) = n := by
    rcases hr with hr | ⟨c, cs, hr, hc⟩
    · subst hr
      rw [List.append_nil]
      rw [List.takeWhile_eq_self_iff.mpr hnall]
    · subst hr
      exact takeWhile_append_cons _ n c cs hnall (by simp [hc])
  have hdw : (n ++ rest2).dropWhile (fun c => !isNetlocDelim c) = rest2 := by
    rcases hr with hr | ⟨c, cs, hr, hc⟩
    · subst hr
      rw [List.append_nil]
      rw [List.dropWhile_eq_nil_iff.mpr (fun c hc => hnall c hc)]
    · subst hr
      exact dropWhile_append_cons _ n c cs hnall (by simp [hc])
  rw [htw, hdw, if_neg (not_or.mpr ⟨hbr1, hbr2⟩)]

theorem splitNetloc_reparse_rel (rest : PyStr) (h2 : rest.take 2 ≠ pys "//") :
    splitNetloc rest = some ([], rest) := by
  unfold splitNetloc
  rw [if_neg h2]

theorem splitFragment_no_frag (r : PyStr) (h : '#' ∉ r) : splitFragment r = (r, []) := by
  unfold splitFragment
  rw [if_neg h]

theorem splitQuery_with_query (p q : PyStr) (hp : '?' ∉ p) :
    splitQuery (p ++ '?' :: q) = (p, q) := by
  unfold splitQuery
  have hin : '?' ∈ p ++ '?' :: q := List.mem_append.mpr (Or.inr (List.mem_cons_self _ _))
  rw [if_pos hin, splitFirst_of_split '?' p q hp]
  rfl

theorem splitQuery_no_query (p : PyStr) (hp : '?' ∉ p) : splitQuery p = (p, []) := by
  unfold splitQuery
  rw [if_neg hp]

theorem urlsplit_clean (c : Char) (cs : PyStr)
    (hc : isC0OrSpace c = false)
    (hsafe : ∀ x ∈ c :: cs, isUnsafeUrlChar x = false) :
    removeUnsafe ((c :: cs).dropWhile isC0OrSpace) = c :: cs := by
  rw [List.dropWhile_cons, if_neg (by simp [hc])]
  exact List.filter_eq_self.mpr (fun x hx => by simp [hsafe x hx])

theorem pyUrlsplit_eval (F : PyStr) (c0 : Char) (cs : PyStr) (hF : F = c0 :: cs)
    (hc0 : isC0OrSpace c0 = false) (hsafe : ∀ x ∈ F, isUnsafeUrlChar x = false)
    {sch rest n rest2 : PyStr}
    (hsch : splitScheme F = (sch, rest))
    (hnl : splitNetloc rest = some (n, rest2)) :
    pyUrlsplit F = some ⟨sch, n, (splitQuery (splitFragment rest2).1).1,
      (splitQuery (splitFragment rest2).1).2, (splitFragment rest2).2⟩ := by
  unfold pyUrlsplit
  dsimp only
  have hclean : removeUnsafe (F.dropWhile isC0OrSpace) = F := by
    rw [hF]
    exact urlsplit_clean c0 cs hc0 (hF ▸ hsafe)
  rw [hclean, hsch]
  dsimp only
  rw [hnl]

theorem splitFQ (P q tail : PyStr) (hPf : '#' ∉ P) (hPq : '?' ∉ P) (hq_f : '#' ∉ q)
    (htail : (q ≠ [] ∧ tail = '?' :: q) ∨ (q = [] ∧ tail = [])) :
    splitFragment (P ++ tail) = (P ++ tail, []) ∧ splitQuery (P ++ tail) = (P, q) := by
  rcases htail with ⟨hq, ht⟩ | ⟨hq, ht⟩
  · subst ht
    constructor
    · apply splitFragment_no_frag
      intro hmem
      rcases List.mem_append.mp hmem with h | h
      · exact hPf h
      · rcases List.mem_cons.mp h with h | h
        · exact absurd h (by decide)
        · exact hq_f h
    · exact splitQuery_with_query P q hPq
  · subst ht
    subst hq
    rw [List.append_nil]
    exact ⟨splitFragment_no_frag P hPf, splitQuery_no_query P hPq⟩

theorem pyUrlsplit_unsplit (s n p q : PyStr)
    (hs_ne : s ≠ []) (hs_alpha : isAsciiAlpha (s.headD ' ') = true)
    (hs_sch : s.all schemeChar = true) (hs_low : pyLower s = s)
    (hn_all : n.all (fun c => !isNetlocDelim c && !isUnsafeUrlChar c) = true)
    (hbr1 : ¬('[' ∈ n ∧ ']' ∉ n)) (hbr2 : ¬(']' ∈ n ∧ '[' ∉ n))
    (hp_ne : p ≠ []) (hp_safe : p.all (fun c => !isUnsafeUrlChar c) = true)
    (hp_q : '?' ∉ p) (hp_f : '#' ∉ p)
    (hq_safe : ∀ c ∈ q, isUnsafeUrlChar c = false) (hq_f : '#' ∉ q)
    (hgood : n ≠ [] ∨ p.take 2 ≠ pys "//") :
    pyUrlsplit (pyUrlunsplit s n p q []) =
      some ⟨s, n,
        (if (n ≠ [] ∨ (s ≠ [] ∧ s ∈ usesNetloc ∧ p.take 2 ≠ pys "//")) ∧
            p.take 1 ≠ pys "/" then '/' :: p else p),
        q, []⟩ := by
  obtain ⟨c0, s', hs0⟩ : ∃ c0 s', s = c0 :: s' := by
    cases s with
    | nil => exact absurd rfl hs_ne
    | cons a b => exact ⟨a, b, rfl⟩
  have hc0_alpha : isAsciiAlpha c0 = true := by rw [hs0] at hs_alpha; exact hs_alpha
  have hc0_c0 : isC0OrSpace c0 = false := isAsciiAlpha_not_c0 c0 hc0_alpha
  have htail : (q ≠ [] ∧ (if q ≠ [] then '?' :: q else []) = '?' :: q) ∨
      (q = [] ∧ (if q ≠ [] then '?' :: q else ([] : PyStr)) = []) := by
    by_cases hq : q = []
    · right
      exact ⟨hq, by rw [if_neg (by simp [hq])]⟩
    · left
      exact ⟨hq, by rw [if_pos hq]⟩
  have htailmem : ∀ x ∈ (if q ≠ [] then '?' :: q else ([] : PyStr)),
      x = '?' ∨ x ∈ q := by
    intro x hx
    rcases htail with ⟨hq, ht⟩ | ⟨hq, ht⟩ <;> rw [ht] at hx
    · rcases List.mem_cons.mp hx with hx | hx
      · exact Or.inl hx
      · exact Or.inr hx
    · simp at hx
  by_cases hcond : n ≠ [] ∨ (s ≠ [] ∧ s ∈ usesNetloc ∧ p.take 2 ≠ pys "//")
  · -- authority form: scheme://netloc/path[?query]
    have hp1ex : ∃ t, (if p ≠ [] ∧ p.take 1 ≠ pys "/" then '/' :: p else p) = '/' :: t := by
      by_cases hsl : p.take 1 = pys "/"
      · rw [if_neg (fun hand => hand.2 hsl)]
        cases p with
        | nil => exact absurd rfl hp_ne
        | cons a as =>
          rw [List.take_succ_cons, List.take_zero] at hsl
          injection hsl with h1 h2
          exact ⟨as, by rw [h1]⟩
      · rw [if_pos ⟨hp_ne, hsl⟩]
        exact ⟨p, rfl⟩
    obtain ⟨t, hp1t⟩ := hp1ex
    have hp1mem : ∀ x ∈ (if p ≠ [] ∧ p.take 1 ≠ pys "/" then '/' :: p else p),
        x = '/' ∨ x ∈ p := by
      intro x hx
      split at hx
      · rcases List.mem_cons.mp hx with hx | hx
        · exact Or.inl hx
        · exact Or.inr hx
      · exact Or.inr hx
    have hF : pyUrlunsplit s n p q [] =
        s ++ ':' :: ('/' :: '/' :: (n ++
          ((if p ≠ [] ∧ p.take 1 ≠ pys "/" then '/' :: p else p) ++
            (if q ≠ [] then '?' :: q else [])))) := by
      unfold pyUrlunsplit
      dsimp only
      rw [if_pos hcond, if_pos hs_ne, if_neg (show ¬(([] : PyStr) ≠ []) by simp)]
      have h2 : pys "//" = ['/', '/'] := rfl
      rcases htail with ⟨hq, ht⟩ | ⟨hq, ht⟩
      · rw [if_pos hq, ht, h2]
        simp [List.append_assoc, List.cons_append]
      · rw [if_neg (by simp [hq]), ht, h2]
        simp [List.append_assoc, List.cons_append]
    have hsafe : ∀ x ∈ s ++ ':' :: ('/' :: '/' :: (n ++
        ((if p ≠ [] ∧ p.take 1 ≠ pys "/" then '/' :: p else p) ++
          (if q ≠ [] then '?' :: q else [])))), isUnsafeUrlChar x = false := by
      intro x hx
      simp only [List.mem_append, List.mem_cons] at hx
      rcases hx with hx | hx | hx | hx | hx | hx | hx
      · exact schemeChar_not_unsafe x (List.all_eq_true.mp hs_sch x hx)
      · subst hx; decide
      · subst hx; decide
      · subst hx; decide
      · have := List.all_eq_true.mp hn_all x hx
        simp only [Bool.and_eq_true, Bool.not_eq_true'] at this
        exact this.2
      · rcases hp1mem x hx with hx | hx
        · subst hx; decide
        · have := List.all_eq_true.mp hp_safe x hx
          simpa using this
      · rcases htailmem x hx with hx | hx
        · subst hx; decide
        · exact hq_safe x hx
    have hsch : splitScheme (s ++ ':' :: ('/' :: '/' :: (n ++
        ((if p ≠ [] ∧ p.take 1 ≠ pys "/" then '/' :: p else p) ++
          (if q ≠ [] then '?' :: q else []))))) =
        (s, '/' :: '/' :: (n ++
          ((if p ≠ [] ∧ p.take 1 ≠ pys "/" then '/' :: p else p) ++
            (if q ≠ [] then '?' :: q else [])))) :=
      splitScheme_reparse _ hs_ne hs_alpha hs_sch hs_low
    have hnall' : ∀ c ∈ n, isNetlocDelim c = false := by
      intro c hc
      have := List.all_eq_true.mp hn_all c hc
      simp only [Bool.and_eq_true, Bool.not_eq_true'] at this
      exact this.1
    have hnl : splitNetloc ('/' :: '/' :: (n ++
        ((if p ≠ [] ∧ p.take 1 ≠ pys "/" then '/' :: p else p) ++
          (if q ≠ [] then '?' :: q else [])))) =
        some (n, (if p ≠ [] ∧ p.take 1 ≠ pys "/" then '/' :: p else p) ++
          (if q ≠ [] then '?' :: q else [])) := by
      apply splitNetloc_reparse_netloc n _ hnall' hbr1 hbr2
      right
      exact ⟨'/', t ++ (if q ≠ [] then '?' :: q else []),
        by rw [hp1t]; simp [List.cons_append], by decide⟩
    have hp1f : '#' ∉ (if p ≠ [] ∧ p.take 1 ≠ pys "/" then '/' :: p else p) := by
      intro hmem
      rcases hp1mem '#' hmem with hx | hx
      · exact absurd hx (by decide)
      · exact hp_f hx
    have hp1q : '?' ∉ (if p ≠ [] ∧ p.take 1 ≠ pys "/" then '/' :: p else p) := by
      intro hmem
      rcases hp1mem '?' hmem with hx | hx
      · exact absurd hx (by decide)
      · exact hp_q hx
    obtain ⟨hfrag, hquery⟩ := splitFQ _ q _ hp1f hp1q hq_f htail
    rw [hF, pyUrlsplit_eval _ c0 (s' ++ ':' :: _) (by rw [hs0]; rfl) hc0_c0 hsafe hsch hnl,
      hfrag]
    dsimp only
    rw [hquery]
    have hifeq : (if p ≠ [] ∧ p.take 1 ≠ pys "/" then '/' :: p else p) =
        (if (n ≠ [] ∨ (s ≠ [] ∧ s ∈ usesNetloc ∧ p.take 2 ≠ pys "//")) ∧
            p.take 1 ≠ pys "/" then '/' :: p else p) := by
      by_cases hsl : p.take 1 = pys "/"
      · rw [if_neg (fun hand => hand.2 hsl), if_neg (fun hand => hand.2 hsl)]
      · rw [if_pos ⟨hp_ne, hsl⟩, if_pos ⟨hcond, hsl⟩]
    rw [hifeq]
  · -- relative form: scheme:path[?query]
    have hn0 : n = [] := by
      by_contra hn0
      exact hcond (Or.inl hn0)
    have hp2 : p.take 2 ≠ pys "//" := by
      rcases hgood with h | h
      · exact absurd h.elim (fun _ => (h hn0).elim)
      · exact h
    have hF : pyUrlunsplit s n p q [] =
        s ++ ':' :: (p ++ (if q ≠ [] then '?' :: q else [])) := by
      unfold pyUrlunsplit
      dsimp only
      rw [if_neg hcond, if_pos hs_ne, if_neg (show ¬(([] : PyStr) ≠ []) by simp)]
      rcases htail with ⟨hq, ht⟩ | ⟨hq, ht⟩
      · rw [if_pos hq, ht]
        simp [List.append_assoc, List.cons_append]
      · rw [if_neg (by simp [hq]), ht]
        simp
    have hsafe : ∀ x ∈ s ++ ':' :: (p ++ (if q ≠ [] then '?' :: q else [])),
        isUnsafeUrlChar x = false := by
      intro x hx
      simp only [List.mem_append, List.mem_cons] at hx
      rcases hx with hx | hx | hx | hx
      · exact schemeChar_not_unsafe x (List.all_eq_true.mp hs_sch x hx)
      · subst hx; decide
      · have := List.all_eq_true.mp hp_safe x hx
        simpa using this
      · rcases htailmem x hx with hx | hx
        · subst hx; decide
        · exact hq_safe x hx
    have hsch : splitScheme (s ++ ':' :: (p ++ (if q ≠ [] then '?' :: q else []))) =
        (s, p ++ (if q ≠ [] then '?' :: q else [])) :=
      splitScheme_reparse _ hs_ne hs_alpha hs_sch hs_low
    have htake2 : (p ++ (if q ≠ [] then '?' :: q else [])).take 2 ≠ pys "//" := by
      cases p with
      | nil => exact absurd rfl hp_ne
      | cons a as =>
        cases as with
        | nil =>
          intro hcontra
          rw [List.cons_append, List.nil_append, List.take_succ_cons] at hcontra
          injection hcontra with h1 h2
          rcases htail with ⟨hq, ht⟩ | ⟨hq, ht⟩ <;> rw [ht] at h2
          · rw [List.take_succ_cons, List.take_zero] at h2
            injection h2 with h3 h4
            exact absurd h3 (by decide)
          · simp at h2
        | cons b bs =>
          intro hcontra
          rw [List.cons_append, List.cons_append, List.take_succ_cons,
            List.take_succ_cons, List.take_zero] at hcontra
          apply hp2
          rw [List.take_succ_cons, List.take_succ_cons, List.take_zero]
          exact hcontra
    have hnl : splitNetloc (p ++ (if q ≠ [] then '?' :: q else [])) =
        some ([], p ++ (if q ≠ [] then '?' :: q else [])) :=
      splitNetloc_reparse_rel _ htake2
    obtain ⟨hfrag, hquery⟩ := splitFQ p q _ hp_f hp_q hq_f htail
    rw [hF, pyUrlsplit_eval _ c0 (s' ++ ':' :: _) (by rw [hs0]; rfl) hc0_c0 hsafe hsch hnl,
      hfrag]
    dsimp only
    rw [hquery]
    rw [if_neg (fun hand => hcond hand.1), hn0]

/-! ## Stability of the canonical components under re-canonicalization -/

theorem mem_intercalate_single {x : Char} {l : List PyStr} {c : Char} :
    c ∈ List.intercalate [x] l → c = x ∨ ∃ a ∈ l, c ∈ a := by
  induction l with
  | nil => intro h; simp [List.intercalate] at h
  | cons a rest ih =>
    intro h
    cases rest with
    | nil =>
      rw [show List.intercalate [x] [a] = a from by
        simp [List.intercalate]] at h
      exact Or.inr ⟨a, List.mem_cons_self _ _, h⟩
    | cons b bs =>
      rw [show List.intercalate [x] (a :: b :: bs) =
          a ++ [x] ++ List.intercalate [x] (b :: bs) from by
        simp [List.intercalate, List.intersperse_cons_cons]] at h
      rcases List.mem_append.mp h with h | h
      · rcases List.mem_append.mp h with h | h
        · exact Or.inr ⟨a, List.mem_cons_self _ _, h⟩
        · exact Or.inl (List.mem_singleton.mp h)
      · rcases ih h with h | ⟨d, hd, hcd⟩
        · exact Or.inl h
        · exact Or.inr ⟨d, List.mem_cons_of_mem _ hd, hcd⟩

theorem urlencodePairs_chars (ps : List (PyStr × PyStr)) :
    ∀ c ∈ urlencodePairs ps, isUnsafeUrlChar c = false ∧ c ≠ '#' := by
  intro c hc
  unfold urlencodePairs at hc
  rcases mem_intercalate_single hc with hc | ⟨a, ha, hca⟩
  · subst hc
    exact ⟨by decide, by decide⟩
  · obtain ⟨kv, hkv, hae⟩ := List.mem_map.mp ha
    subst hae
    have hfromquote : ∀ (w : PyStr), c ∈ quotePlus w →
        isUnsafeUrlChar c = false ∧ c ≠ '#' := by
      intro w hw
      obtain ⟨h1, h2, _, _, h5, _⟩ := quotePlus_chars w c hw
      refine ⟨?_, h5⟩
      rw [Bool.eq_false_iff]
      intro hu
      have := (isUnsafeUrlChar_iff c).mp hu
      omega
    rcases List.mem_append.mp hca with h | h
    · exact hfromquote kv.1 h
    · rcases List.mem_cons.mp h with h | h
      · subst h
        exact ⟨by decide, by decide⟩
      · exact hfromquote kv.2 h

theorem mem_canonFilter_fixed {ps : List (PyStr × PyStr)} {kv : PyStr × PyStr}
    (h : kv ∈ canonFilter ps) : canonFilterPair kv = some kv := by
  obtain ⟨orig, horig, he⟩ := List.mem_filterMap.mp h
  have := canonFilterPair_bind orig
  rw [he] at this
  simpa using this

theorem canonFilterPair_fixed_key_ne {kv : PyStr × PyStr}
    (h : canonFilterPair kv = some kv) : kv.1 ≠ [] := by
  intro hnil
  unfold canonFilterPair at h
  rw [hnil, show pyStrip ([] : PyStr) = [] from rfl] at h
  simp at h

theorem canonFilter_of_fixed {l : List (PyStr × PyStr)}
    (h : ∀ kv ∈ l, canonFilterPair kv = some kv) : canonFilter l = l := by
  induction l with
  | nil => rfl
  | cons kv rest ih =>
    unfold canonFilter
    rw [List.filterMap_cons, h kv (List.mem_cons_self _ _)]
    have := ih (fun x hx => h x (List.mem_cons_of_mem _ hx))
    unfold canonFilter at this
    rw [this]

theorem takeWhile_append_stop {q : Char → Bool} {A : PyStr} (B : PyStr)
    (h : ∃ a ∈ A, q a = false) :
    (A ++ B).takeWhile q = A.takeWhile q := by
  induction A with
  | nil =>
    obtain ⟨a, ha, _⟩ := h
    simp at ha
  | cons x xs ih =>
    rw [List.cons_append, List.takeWhile_cons, List.takeWhile_cons]
    by_cases hx : q x = true
    · rw [if_pos hx, if_pos hx]
      obtain ⟨a, ha, hqa⟩ := h
      rcases List.mem_cons.mp ha with ha | ha
      · rw [ha] at hqa
        rw [hqa] at hx
        cases hx
      · rw [ih ⟨a, ha, hqa⟩]
    · rw [if_neg hx, if_neg hx]

theorem lastSlashSeg_cons_slash (P : PyStr) :
    lastSlashSeg ('/' :: P) = if '/' ∈ P then lastSlashSeg P else P := by
  unfold lastSlashSeg
  rw [List.reverse_cons]
  by_cases hsl : '/' ∈ P
  · rw [if_pos hsl]
    rw [takeWhile_append_stop _ ⟨'/', List.mem_reverse.mpr hsl, by simp⟩]
  · rw [if_neg hsl]
    rw [takeWhile_append_cons _ P.reverse '/' []
      (fun x hx => by
        have hxp : x ∈ P := List.mem_reverse.mp hx
        simpa using fun he => hsl (by rw [← he]; exact hxp)) (by simp)]
    exact List.reverse_reverse P

theorem noSemiParams_cons_slash (P : PyStr) (h : noSemiParams P) :
    noSemiParams ('/' :: P) := by
  unfold noSemiParams at h ⊢
  rw [if_pos (List.mem_cons_self _ _), lastSlashSeg_cons_slash]
  by_cases hsl : '/' ∈ P
  · rw [if_pos hsl]
    rw [if_pos hsl] at h
    exact h
  · rw [if_neg hsl]
    rw [if_neg hsl] at h
    exact h

theorem splitParams_of_noSemi (P : PyStr) (h : noSemiParams P) (hsl : '/' ∈ P) :
    splitParams P = (P, []) := by
  unfold splitParams
  rw [if_pos hsl]
  dsimp only
  unfold noSemiParams at h
  rw [if_pos hsl] at h
  rw [List.findIdx?_eq_none_iff.mpr (fun x hx => by
    simpa using fun he => h (by rw [← he]; exact hx))]

theorem pyUrlunparse_nil_params (s n p q f : PyStr) :
    pyUrlunparse s n p [] q f = pyUrlunsplit s n p q f := by
  unfold pyUrlunparse
  rw [if_neg (show ¬(([] : PyStr) ≠ []) from by simp)]

theorem canonicalizeUrl_of_parse {v : PyStr} {pr : ParseResult}
    (hpr : pyUrlparse v = some pr) :
    canonicalizeUrl v = pyUrlunparse
      (if pyLower pr.scheme = [] then pys "https" else pyLower pr.scheme)
      (pyLower pr.netloc)
      (if pr.path = [] then pys "/" else pr.path) []
      (if (canonFilter (parseQsl pr.query)).insertionSort canonPairLe = [] then []
       else urlencodePairs ((canonFilter (parseQsl pr.query)).insertionSort canonPairLe))
      [] := by
  unfold canonicalizeUrl
  rw [hpr]

theorem pyUrlunsplit_pathOut (S N P Q : PyStr) (hP_ne : P ≠ []) :
    pyUrlunsplit S N
      (if (N ≠ [] ∨ (S ≠ [] ∧ S ∈ usesNetloc ∧ P.take 2 ≠ pys "//")) ∧
          P.take 1 ≠ pys "/" then '/' :: P else P) Q [] =
    pyUrlunsplit S N P Q [] := by
  by_cases hcond : N ≠ [] ∨ (S ≠ [] ∧ S ∈ usesNetloc ∧ P.take 2 ≠ pys "//")
  · by_cases hsl : P.take 1 = pys "/"
    · rw [if_neg (fun hand => hand.2 hsl)]
    · rw [if_pos ⟨hcond, hsl⟩]
      unfold pyUrlunsplit
      dsimp only
      have hcondL : N ≠ [] ∨ (S ≠ [] ∧ S ∈ usesNetloc ∧ ('/' :: P).take 2 ≠ pys "//") := by
        rcases hcond with h | ⟨h1, h2, h3⟩
        · exact Or.inl h
        · refine Or.inr ⟨h1, h2, ?_⟩
          rw [List.take_succ_cons]
          intro hc
          injection hc with hh ht
          exact hsl ht
      rw [if_pos hcondL, if_pos hcond]
      have hfalse : ¬('/' :: P ≠ [] ∧ List.take 1 ('/' :: P) ≠ pys "/") :=
        fun hand => hand.2 (by rw [List.take_succ_cons, List.take_zero]; rfl)
      rw [if_neg hfalse, if_pos (show P ≠ [] ∧ List.take 1 P ≠ pys "/" from ⟨hP_ne, hsl⟩)]
  · rw [if_neg (fun hand => hcond hand.1)]

/-- The combined reparse facts for `canonicalize_url` on a parsed input
outside the collapsing class: the canonical output splits back into the
canonical components (lower-cased or defaulted scheme, lower-cased netloc, no
fragment, and a query that decodes to the sorted filtered pairs), and
canonicalizing twice equals canonicalizing once. -/
theorem canonicalizeUrl_reparse_full (u : PyStr) (p : ParseResult)
    (hp : pyUrlparse u = some p)
    (hgood' : p.netloc ≠ [] ∨ p.path.take 2 ≠ pys "//") :
    (∃ s2, pyUrlsplit (canonicalizeUrl u) = some s2 ∧
      s2.scheme = (if pyLower p.scheme = [] then pys "https" else pyLower p.scheme) ∧
      s2.netloc = pyLower p.netloc ∧
      s2.fragment = [] ∧
      parseQsl s2.query = (canonFilter (parseQsl p.query)).insertionSort canonPairLe) ∧
    canonicalizeUrl (canonicalizeUrl u) = canonicalizeUrl u := by
  obtain ⟨g1, g2, g3, g4, g5, g6, g7, g8, g9, g10⟩ := pyUrlparse_spec hp
  have hcanonu0 := (canonicalizeUrl_of_parse hp).trans (pyUrlunparse_nil_params _ _ _ _ _)
  set sorted := (canonFilter (parseQsl p.query)).insertionSort canonPairLe with hsorted
  set S : PyStr := if pyLower p.scheme = [] then pys "https" else pyLower p.scheme
    with hS
  set N : PyStr := pyLower p.netloc with hN
  set P : PyStr := if p.path = [] then pys "/" else p.path with hP
  set Q : PyStr := if sorted = [] then [] else urlencodePairs sorted with hQ
  have hS_low : pyLower S = S := by
    rw [hS]
    by_cases h0 : pyLower p.scheme = []
    · rw [if_pos h0]
      decide
    · rw [if_neg h0]
      exact pyLower_pyLower p.scheme
  have hS_ne : S ≠ [] := by
    rw [hS]
    by_cases h0 : pyLower p.scheme = []
    · rw [if_pos h0]
      decide
    · rw [if_neg h0]
      exact h0
  have hS_alpha : isAsciiAlpha (S.headD ' ') = true := by
    rw [hS]
    by_cases h0 : pyLower p.scheme = []
    · rw [if_pos h0]
      decide
    · rw [if_neg h0, g1]
      exact g3 (fun he => h0 (by rw [g1, he]))
  have hS_sch : S.all schemeChar = true := by
    rw [hS]
    by_cases h0 : pyLower p.scheme = []
    · rw [if_pos h0]
      decide
    · rw [if_neg h0, g1]
      exact g2
  have hn_all' : N.all (fun c => !isNetlocDelim c && !isUnsafeUrlChar c) = true := by
    rw [hN]
    unfold pyLower
    rw [List.all_map]
    have he : ((fun c => !isNetlocDelim c && !isUnsafeUrlChar c) ∘ lowerChar) =
        (fun c => !isNetlocDelim c && !isUnsafeUrlChar c) := by
      funext c
      show (!isNetlocDelim (lowerChar c) && !isUnsafeUrlChar (lowerChar c)) = _
      rw [isNetlocDelim_lowerChar, isUnsafeUrlChar_lowerChar]
    rw [he]
    exact g4
  have hbr1' : ¬('[' ∈ N ∧ ']' ∉ N) := by
    rw [hN, mem_pyLower_lbracket, mem_pyLower_rbracket]
    exact g5
  have hbr2' : ¬(']' ∈ N ∧ '[' ∉ N) := by
    rw [hN, mem_pyLower_lbracket, mem_pyLower_rbracket]
    exact g6
  have hp_ne : P ≠ [] := by
    rw [hP]
    by_cases h0 : p.path = []
    · rw [if_pos h0]
      decide
    · rw [if_neg h0]
      exact h0
  have hp_safe : P.all (fun c => !isUnsafeUrlChar c) = true := by
    rw [hP]
    by_cases h0 : p.path = []
    · rw [if_pos h0]
      decide
    · rw [if_neg h0]
      exact g7
  have hp_q : '?' ∉ P := by
    rw [hP]
    by_cases h0 : p.path = []
    · rw [if_pos h0]
      decide
    · rw [if_neg h0]
      exact g8
  have hp_f : '#' ∉ P := by
    rw [hP]
    by_cases h0 : p.path = []
    · rw [if_pos h0]
      decide
    · rw [if_neg h0]
      exact g9
  have hp_semi : S ∈ usesParams → noSemiParams P := by
    intro hSup
    have hpsup : p.scheme ∈ usesParams := by
      rw [hS] at hSup
      by_cases h0 : pyLower p.scheme = []
      · have hnil : p.scheme = [] := by
          have := congrArg List.length h0
          simpa [pyLower] using List.length_eq_zero.mp (by simpa [pyLower] using this)
        rw [hnil]
        decide
      · rw [if_neg h0, g1] at hSup
        exact hSup
    have hsem := g10 hpsup
    rw [hP]
    by_cases h0 : p.path = []
    · rw [if_pos h0]
      unfold noSemiParams
      rw [if_pos (show '/' ∈ pys "/" from by decide),
        show lastSlashSeg (pys "/") = [] from rfl]
      simp
    · rw [if_neg h0]
      exact hsem
  have hq_safe : ∀ c ∈ Q, isUnsafeUrlChar c = false := by
    rw [hQ]
    by_cases h0 : sorted = []
    · rw [if_pos h0]
      intro c hc
      simp at hc
    · rw [if_neg h0]
      exact fun c hc => (urlencodePairs_chars sorted c hc).1
  have hq_f : '#' ∉ Q := by
    rw [hQ]
    by_cases h0 : sorted = []
    · rw [if_pos h0]
      simp
    · rw [if_neg h0]
      exact fun hc => (urlencodePairs_chars sorted '#' hc).2 rfl
  have hgood2 : N ≠ [] ∨ P.take 2 ≠ pys "//" := by
    rcases hgood' with h | h
    · left
      rw [hN]
      intro hc
      exact h (List.map_eq_nil.mp hc)
    · right
      rw [hP]
      by_cases h0 : p.path = []
      · rw [if_pos h0]
        decide
      · rw [if_neg h0]
        exact h
  have hsplit2 := pyUrlsplit_unsplit S N P Q hS_ne hS_alpha hS_sch hS_low hn_all'
    hbr1' hbr2' hp_ne hp_safe hp_q hp_f hq_safe hq_f hgood2
  set Pout : PyStr := if (N ≠ [] ∨ (S ≠ [] ∧ S ∈ usesNetloc ∧ P.take 2 ≠ pys "//")) ∧
      P.take 1 ≠ pys "/" then '/' :: P else P with hPoutDef
  have hPout_ne : Pout ≠ [] := by
    rw [hPoutDef]
    split
    · simp
    · exact hp_ne
  have hPout_semi : S ∈ usesParams → noSemiParams Pout := by
    intro hSup
    rw [hPoutDef]
    split
    · exact noSemiParams_cons_slash P (hp_semi hSup)
    · exact hp_semi hSup
  have hparse2 : pyUrlparse (pyUrlunsplit S N P Q []) =
      some ⟨S, N, Pout, [], Q, []⟩ := by
    unfold pyUrlparse
    rw [hsplit2]
    simp only [Option.map_some']
    by_cases hsm : S ∈ usesParams ∧ ';' ∈ Pout
    · dsimp only
      rw [if_pos hsm]
      have hsem := hPout_semi hsm.1
      have hslP : '/' ∈ Pout := by
        by_contra hns
        unfold noSemiParams at hsem
        rw [if_neg hns] at hsem
        exact hsem hsm.2
      rw [splitParams_of_noSemi Pout hsem hslP]
    · dsimp only
      rw [if_neg hsm]
  have hkeys : ∀ kv ∈ sorted, canonFilterPair kv = some kv := by
    intro kv hkv
    exact mem_canonFilter_fixed ((List.perm_insertionSort canonPairLe _).subset hkv)
  have hQ2 : (if (canonFilter (parseQsl Q)).insertionSort canonPairLe = [] then []
      else urlencodePairs ((canonFilter (parseQsl Q)).insertionSort canonPairLe)) = Q := by
    by_cases h0 : sorted = []
    · have hQnil : Q = [] := by rw [hQ, if_pos h0]
      rw [hQnil]
      rfl
    · have hQenc : Q = urlencodePairs sorted := by rw [hQ, if_neg h0]
      have hround : parseQsl Q = sorted := by
        rw [hQenc]
        exact parseQsl_urlencodePairs sorted
          (fun kv hkv => canonFilterPair_fixed_key_ne (hkeys kv hkv))
      rw [hround, canonFilter_of_fixed hkeys,
        List.Sorted.insertionSort_eq (List.sorted_insertionSort canonPairLe _),
        if_neg h0, ← hQenc]
  have hparseQ : parseQsl Q = sorted := by
    by_cases h0 : sorted = []
    · rw [hQ, if_pos h0, h0]
      rfl
    · rw [hQ, if_neg h0]
      exact parseQsl_urlencodePairs sorted
        (fun kv hkv => canonFilterPair_fixed_key_ne (hkeys kv hkv))
  constructor
  · refine ⟨⟨S, N, Pout, Q, []⟩, ?_, hS, hN, rfl, ?_⟩
    · rw [hcanonu0]
      exact hsplit2
    · dsimp only
      rw [hparseQ]
  · rw [hcanonu0, canonicalizeUrl_of_parse hparse2, pyUrlunparse_nil_params]
    dsimp only
    rw [hS_low, if_neg hS_ne, hN, pyLower_pyLower, if_neg hPout_ne, hQ2, ← hN]
    exact pyUrlunsplit_pathOut S N P Q hp_ne

/-! ## Theorems for claims C1, C4, C9 -/

/-- C1 (counterexample): `aggregate_results` merges enrichment with
`item.update(...)`, so a patch `{price: "$20"}` OVERWRITES an item's existing
`{price: "$10"}` — the merged value is `"$20"`, not `"$10"` as the claim
requires of every merge site. -/
theorem aggregate_overwrites_present_value :
    dictGet
      (aggregateItem [(pys "r1", [(pys "price", PyVal.str (pys "$20"))])]
        [(pys "id", PyVal.str (pys "r1")), (pys "price", PyVal.str (pys "$10"))])
      (pys "price") = some (PyVal.str (pys "$20")) ∧
    pys "$20" ≠ pys "$10" := ⟨rfl, by decide⟩

/-- C1 (amended): first-write-wins holds where `quality_split` merges
enrichment patches into items: `_merge_enriched` never overwrites a field
whose current value is non-empty, both at the single-item level and for every
item of the merged list.  (`aggregate_results`, by contrast, overwrites.) -/
theorem merge_enriched_first_write_wins :
    (∀ (it extra : Dict) (k : PyStr), emptyOrMissing it k = false →
      dictGet (mergeEnrichedItem it extra) k = dictGet it k) ∧
    (∀ (items : List Dict) (enr : EnrichedMap) (k : PyStr) (i : Nat)
      (h1 : i < items.length) (h2 : i < (mergeEnriched items enr).length),
      emptyOrMissing (items.get ⟨i, h1⟩) k = false →
      dictGet ((mergeEnriched items enr).get ⟨i, h2⟩) k =
        dictGet (items.get ⟨i, h1⟩) k) := by
  refine ⟨mergeEnrichedItem_preserves, ?_⟩
  intro items enr k i h1 h2 hne
  unfold mergeEnriched
  simp only [List.get_eq_getElem, List.getElem_map]
  split
  · rfl
  · exact mergeEnrichedItem_preserves _ _ k hne

/-- C1 witness: with item `{id: "r1", price: "$10"}` and patch map
`{r1: {price: "$20"}}`, `_merge_enriched` keeps the price `"$10"`. -/
theorem merge_enriched_first_write_wins_witness :
    dictGet
      ((mergeEnriched [[(pys "id", PyVal.str (pys "r1")), (pys "price", PyVal.str (pys "$10"))]]
        [(pys "r1", [(pys "price", PyVal.str (pys "$20"))])]).get ⟨0, by decide⟩)
      (pys "price") =
      dictGet [(pys "id", PyVal.str (pys "r1")), (pys "price", PyVal.str (pys "$10"))]
        (pys "price") :=
  merge_enriched_first_write_wins.2
    [[(pys "id", PyVal.str (pys "r1")), (pys "price", PyVal.str (pys "$10"))]]
    [(pys "r1", [(pys "price", PyVal.str (pys "$20"))])]
    (pys "price") 0 (by decide) (by decide) (by decide)

/-- C4: an item is promoted to `main_results` iff it is one of the merged
items and satisfies the tiered rule — every critical field (the category's
human-readable identifier and the url) non-empty AND (the important set is
empty OR some important field is non-empty); in particular an item with an
empty critical field is never promoted. -/
theorem quality_split_tier_rule :
    ∀ (st : SplitState) (cat : Category) (item : Dict),
      (item ∈ qualitySplitMain st cat ↔
        item ∈ mergeEnriched (st.items cat) st.enrichedData ∧ specPromote cat item) ∧
      (hasRequired item cat = true ↔ specPromote cat item) ∧
      (∀ f ∈ [nameField cat, pys "url"], isEmptyVal (dictGetD item f .none) = true →
        item ∉ qualitySplitMain st cat) := by
  intro st cat item
  refine ⟨?_, hasRequired_iff_specPromote item cat, ?_⟩
  · unfold qualitySplitMain
    rw [List.mem_filter, hasRequired_iff_specPromote item cat]
  · intro f hf hempty hmem
    unfold qualitySplitMain at hmem
    rw [List.mem_filter, hasRequired_iff_specPromote item cat] at hmem
    have := hmem.2.1 f hf
    rw [hempty] at this
    simp at this

/-- C4 witness: a restaurant with name, url and cuisine is promoted; one with
an empty url is not, even with both important fields present. -/
theorem quality_split_tier_rule_witness :
    ([(pys "name", PyVal.str (pys "Sushi")), (pys "url", PyVal.str (pys "https://a.com")),
        (pys "cuisine", PyVal.str (pys "japanese"))] ∈
      qualitySplitMain
        ⟨[[(pys "name", PyVal.str (pys "Sushi")), (pys "url", PyVal.str (pys "https://a.com")),
          (pys "cuisine", PyVal.str (pys "japanese"))]], [], [], [], [], [], []⟩
        .restaurants ↔
      [(pys "name", PyVal.str (pys "Sushi")), (pys "url", PyVal.str (pys "https://a.com")),
        (pys "cuisine", PyVal.str (pys "japanese"))] ∈
        mergeEnriched [[(pys "name", PyVal.str (pys "Sushi")),
          (pys "url", PyVal.str (pys "https://a.com")),
          (pys "cuisine", PyVal.str (pys "japanese"))]] [] ∧
        specPromote .restaurants
          [(pys "name", PyVal.str (pys "Sushi")), (pys "url", PyVal.str (pys "https://a.com")),
            (pys "cuisine", PyVal.str (pys "japanese"))]) :=
  (quality_split_tier_rule
    ⟨[[(pys "name", PyVal.str (pys "Sushi")), (pys "url", PyVal.str (pys "https://a.com")),
      (pys "cuisine", PyVal.str (pys "japanese"))]], [], [], [], [], [], []⟩
    .restaurants
    [(pys "name", PyVal.str (pys "Sushi")), (pys "url", PyVal.str (pys "https://a.com")),
      (pys "cuisine", PyVal.str (pys "japanese"))]).1

/-- C9: every item demoted by Quality Split lands in the reference list as
`{**item, section, title, content}`: every other key keeps its merged value
(enrichment patches included, since demotion happens after `_merge_enriched`),
and only the section label plus the synthesized display title and snippet are
added. -/
theorem demotion_preserves_payload :
    ∀ (st : SplitState) (cat : Category) (item : Dict),
      item ∈ mergeEnriched (st.items cat) st.enrichedData →
      hasRequired item cat = false →
      demoteRecord cat item ∈ qualitySplitRefs st ∧
      (∀ k : PyStr, k ≠ pys "section" → k ≠ pys "title" → k ≠ pys "content" →
        dictGet (demoteRecord cat item) k = dictGet item k) ∧
      dictGet (demoteRecord cat item) (pys "section") = some (PyVal.str (sectionMap cat)) ∧
      dictGet (demoteRecord cat item) (pys "title") =
        some (pyOr (dictGetD item (nameField cat) .none)
          (pyOr (dictGetD item (pys "name") .none) (.str (pys "Source")))) ∧
      dictGet (demoteRecord cat item) (pys "content") =
        some (pyOr (dictGetD item (pys "snippet") .none)
          (pyOr (dictGetD item (pys "why_recommended") .none) (.str []))) := by
  intro st cat item hmem hfail
  have hexpand : demoteRecord cat item =
      dictSet (dictSet (dictSet item (pys "section") (.str (sectionMap cat)))
        (pys "title") (pyOr (dictGetD item (nameField cat) .none)
          (pyOr (dictGetD item (pys "name") .none) (.str (pys "Source")))))
        (pys "content") (pyOr (dictGetD item (pys "snippet") .none)
          (pyOr (dictGetD item (pys "why_recommended") .none) (.str []))) := rfl
  refine ⟨?_, ?_, ?_, ?_, ?_⟩
  · unfold qualitySplitRefs
    refine List.mem_append_right _ ?_
    rw [List.mem_flatMap]
    refine ⟨cat, by cases cat <;> decide, ?_⟩
    rw [List.mem_map]
    refine ⟨item, ?_, rfl⟩
    rw [List.mem_filter]
    exact ⟨hmem, by rw [hfail]; rfl⟩
  · intro k hks hkt hkc
    rw [hexpand, dictGet_dictSet_ne _ _ _ _ (fun he => hkc he.symm),
      dictGet_dictSet_ne _ _ _ _ (fun he => hkt he.symm),
      dictGet_dictSet_ne _ _ _ _ (fun he => hks he.symm)]
  · rw [hexpand, dictGet_dictSet_ne _ _ _ _ (by decide),
      dictGet_dictSet_ne _ _ _ _ (by decide), dictGet_dictSet_self]
  · rw [hexpand, dictGet_dictSet_ne _ _ _ _ (by decide), dictGet_dictSet_self]
  · rw [hexpand, dictGet_dictSet_self]

/-- C9 witness: a restaurant lacking its url is demoted and its `cuisine`
value survives in the reference record. -/
theorem demotion_preserves_payload_witness :
    dictGet (demoteRecord .restaurants
        [(pys "name", PyVal.str (pys "A")), (pys "cuisine", PyVal.str (pys "thai"))])
      (pys "cuisine") =
      dictGet [(pys "name", PyVal.str (pys "A")), (pys "cuisine", PyVal.str (pys "thai"))]
        (pys "cuisine") :=
  (demotion_preserves_payload
    ⟨[[(pys "name", PyVal.str (pys "A")), (pys "cuisine", PyVal.str (pys "thai"))]],
      [], [], [], [], [], []⟩
    .restaurants
    [(pys "name", PyVal.str (pys "A")), (pys "cuisine", PyVal.str (pys "thai"))]
    (List.mem_cons_self _ _) (by decide)).2.1 (pys "cuisine") (by decide) (by decide) (by decide)


/-- C3 (counterexample): the spec's Convergence Controller routing rule fires
at `gap_ratio = 1`, `loop_count = 0` (so the spec sends the run back to the
Resolver for a second pass), but in `build_graph` the enrichment node's only
successor is `AggregateResults`, no edge targets the enrichment node from
anywhere but the four producers, and a run executes the enrichment node
exactly once. -/
theorem convergence_loop_absent :
    specRoutesBack 1 0 = true ∧
    successors .enrichmentAgent = [.aggregateResults] ∧
    (∀ e ∈ graphEdges, e.2 = GNode.enrichmentAgent →
      e.1 = GNode.restaurantAgent ∨ e.1 = GNode.attractionsAgent ∨
      e.1 = GNode.hotelAgent ∨ e.1 = GNode.transportAgent) ∧
    execCount .enrichmentAgent = 1 := by
  refine ⟨?_, by decide, by decide, by decide⟩
  norm_num [specRoutesBack]

/-- C3 (amended): the compiled graph is a static pipeline with no convergence
controller — every run performs exactly one Resolver (enrichment) pass, which
trivially satisfies the spec's bound of at most `loop_cap + 1` passes, and the
run terminates (the execution frontier is empty from superstep 5 on). -/
theorem graph_single_enrichment_pass :
    execCount .enrichmentAgent = 1 ∧
    execCount .enrichmentAgent ≤ specLoopCap + 1 ∧
    successors .enrichmentAgent = [.aggregateResults] ∧
    frontiers 5 = [] := by
  decide

/-- C8: constraint-parse failures are NOT fatal and do not short-circuit the
producers.  On the failing input (a state with no `constraints` and an empty
prompt) `parse_request` returns a plain partial update carrying a warning; on
a non-empty prompt whose LLM extraction raises, it returns fallback
constraints with a warning.  It returns on every path — it never raises — and
`build_graph` wires all four producers unconditionally after `ParseRequest`,
so they always run.  (The repo's own test `test_parse_node.py` expects
`ValueError("constraints are required")` here, matching the spec; the code
diverges from both.) -/
theorem parse_failure_not_fatal :
    parseRequest (.error (pys "boom")) (pys "2026-10-12") ⟨[], []⟩
      = ⟨[], [pys "No prompt provided"]⟩ ∧
    parseRequest (.error (pys "boom")) (pys "2026-10-12") ⟨[], pys "plan a trip"⟩
      = ⟨fallbackConstraints (pys "2026-10-12"),
         [pys "Failed to parse request: boom"]⟩ ∧
    successors .parseRequest
      = [.restaurantAgent, .attractionsAgent, .hotelAgent, .transportAgent] :=
  ⟨rfl, rfl, by decide⟩


/-- C2: call-budget bound for a single enrichment pass.  For every oracle
behaviour (arbitrary Tavily search/extract/map responses, including
exceptions, and arbitrary LLM outcomes), every item list and every raw-result
list, `_extract_and_parse` started with a fresh counter dispatches at most
`TAVILY_CALL_CAP = 20` Search-Service calls; moreover the dispatched-call log
never outruns the `tavily_calls` counter, because `_take_call` reserves
budget before each call is dispatched rather than after it completes. -/
theorem enrichment_call_budget (o : EnrichOracles) (items : List EItem)
    (raw_items : List Page) :
    (_extract_and_parse o items raw_items ⟨0, []⟩).2.log.length ≤
      (_extract_and_parse o items raw_items ⟨0, []⟩).2.calls ∧
    (_extract_and_parse o items raw_items ⟨0, []⟩).2.calls ≤ TAVILY_CALL_CAP ∧
    (_extract_and_parse o items raw_items ⟨0, []⟩).2.log.length ≤ TAVILY_CALL_CAP := by
  rcases he : _extract_and_parse o items raw_items ⟨0, []⟩ with ⟨r, st'⟩
  have h : CallInv st' :=
    extract_and_parse_inv he ⟨Nat.le_refl 0, Nat.zero_le TAVILY_CALL_CAP⟩
  exact ⟨h.1, h.2, Nat.le_trans h.1 h.2⟩


/-- C5 (amended): `canonicalize_url` is idempotent on every url outside the
collapsing class — whenever the parse of `u` does not combine an empty netloc
with a path starting `//` (the class of the counterexample
`canonicalize_not_idempotent`), `canonicalize_url(canonicalize_url(u)) =
canonicalize_url(u)`; inputs that fail to parse are returned unchanged and
are idempotent trivially. -/
theorem canonicalize_idempotent_on_good :
    ∀ u : PyStr, (∀ p, pyUrlparse u = some p →
        p.netloc ≠ [] ∨ p.path.take 2 ≠ pys "//") →
      canonicalizeUrl (canonicalizeUrl u) = canonicalizeUrl u := by
  intro u hgood
  rcases hp : pyUrlparse u with - | p
  · have h1 : canonicalizeUrl u = u := by
      unfold canonicalizeUrl
      rw [hp]
    rw [h1]
    exact h1
  · exact (canonicalizeUrl_reparse_full u p hp (hgood p hp)).2

/-- C5 amended witness: idempotence at a concrete in-class url. -/
theorem canonicalize_idempotent_on_good_witness :
    canonicalizeUrl (canonicalizeUrl (pys "https://Ex.COM/a?b=2&a=1")) =
      canonicalizeUrl (pys "https://Ex.COM/a?b=2&a=1") :=
  canonicalize_idempotent_on_good (pys "https://Ex.COM/a?b=2&a=1") (fun p hp => by
    rw [show pyUrlparse (pys "https://Ex.COM/a?b=2&a=1") =
        some ⟨pys "https", pys "Ex.COM", pys "/a", [], pys "b=2&a=1", []⟩ from by decide]
      at hp
    injection hp with h
    subst h
    decide)

/-- C6 (counterexample): the claim's sort key `(key, value)` is not the
code's.  `canonicalize_url` sorts by `(key.lower(), value)`: on
`http://x.com?B=2&a=1` it emits `http://x.com/?a=1&B=2`, while sorting the
same pairs by plain `(key, value)` leaves `B=2` first (uppercase `B`
precedes lowercase `a` in code points), which would re-encode as
`http://x.com/?B=2&a=1` — a different url. -/
theorem canonicalize_sort_key_counterexample :
    canonicalizeUrl (pys "http://x.com?B=2&a=1") = pys "http://x.com/?a=1&B=2" ∧
    (canonFilter (parseQsl (pys "B=2&a=1"))).insertionSort specPairLe =
      [(pys "B", pys "2"), (pys "a", pys "1")] ∧
    urlencodePairs ((canonFilter (parseQsl (pys "B=2&a=1"))).insertionSort specPairLe) =
      pys "B=2&a=1" ∧
    canonicalizeUrl (pys "http://x.com?B=2&a=1") ≠ pys "http://x.com/?B=2&a=1" := by
  decide

/-- C6 (amended): the canonicalization transform.  The spec's two examples
hold exactly, and in general (outside the collapsing class) the canonical
output reparses to: the lower-cased scheme (defaulted to `https` when
absent), the lower-cased netloc, no fragment, and a query that decodes to
precisely the tracking-filtered query pairs sorted by `(key.lower(), value)`
— the code's sort key, not the plain `(key, value)` of the original claim
(see `canonicalize_sort_key_counterexample`) — so tracking keys (`utm_*` and
the blocklist) are removed and every other pair is preserved. -/
theorem canonicalize_transform :
    canonicalizeUrl (pys "https://Ex.COM/page?utm_source=x&id=1") =
      pys "https://ex.com/page?id=1" ∧
    canonicalizeUrl (pys "http://x.com?b=2&a=1") = pys "http://x.com/?a=1&b=2" ∧
    (∀ u p, pyUrlparse u = some p → (p.netloc ≠ [] ∨ p.path.take 2 ≠ pys "//") →
      ∃ s2, pyUrlsplit (canonicalizeUrl u) = some s2 ∧
        s2.scheme = (if pyLower p.scheme = [] then pys "https" else pyLower p.scheme) ∧
        s2.netloc = pyLower p.netloc ∧
        s2.fragment = [] ∧
        parseQsl s2.query = (canonFilter (parseQsl p.query)).insertionSort canonPairLe) :=
  ⟨by decide, by decide,
   fun u p hp hgood => (canonicalizeUrl_reparse_full u p hp hgood).1⟩

/-- C6 witness: the reparse characterization instantiated at
`"http://x.com?b=2&a=1"`. -/
theorem canonicalize_transform_witness :
    ∃ s2, pyUrlsplit (canonicalizeUrl (pys "http://x.com?b=2&a=1")) = some s2 ∧
      s2.scheme = (if pyLower (pys "http") = [] then pys "https"
        else pyLower (pys "http")) ∧
      s2.netloc = pyLower (pys "x.com") ∧
      s2.fragment = [] ∧
      parseQsl s2.query =
        (canonFilter (parseQsl (pys "b=2&a=1"))).insertionSort canonPairLe :=
  canonicalize_transform.2.2 (pys "http://x.com?b=2&a=1")
    ⟨pys "http", pys "x.com", [], [], pys "b=2&a=1", []⟩ (by decide) (by decide)

end Spot
